import Mathlib

/-!
Shallow embedding of the 2d-tree point-set index (src/include/primitives.h,
src/src/2dtree.cpp), kdtree implementation, together with proofs about its
range, nearest-neighbour, insertion and traversal operations.

Modelling conventions:
* C++ `double` coordinates are modelled as exact rationals (`ℚ`); floating-point
  rounding is abstracted away, arithmetic is exact.
* `std::sqrt` values are carried symbolically by the type `D`: a value is either
  a rational produced by plain arithmetic (`D.lin`) or the square root of a
  rational (`D.sqrtOf`).  Comparisons on `D` are decidable and proved to agree
  with the real-number order on the represented values (`D.lt_iff`).
* `std::numeric_limits<double>::epsilon()` is the exact rational `2⁻⁵²` and
  `std::numeric_limits<double>::max()` is the exact rational `(2⁵³ − 1)·2⁹⁷¹`.
* A null `Node*` is the constructor `Node.nil`.
-/

namespace KD

/- Batteries marks the arithmetic on `Rat` irreducible; restore default
reducibility inside this file so that concrete executions of the model reduce
under `decide`. -/
attribute [local semireducible] Rat.mul Rat.add Rat.sub Rat.inv Rat.ofScientific

set_option maxRecDepth 100000

/-- `std::numeric_limits<double>::epsilon()`, used as `Point::EPS`: `2⁻⁵²`.
(The exponentiation is taken in `ℕ` so that the kernel can evaluate it.) -/
def EPS : ℚ := 1 / ((2 ^ 52 : ℕ) : ℚ)

/-- `std::numeric_limits<double>::max()`: the largest finite double,
`(2⁵³ − 1) · 2⁹⁷¹`.  This is the initial value of `current_min` in
`kdtree::PointSet::nearest`. -/
def DBLMAX : ℚ := (((2 ^ 53 - 1) * 2 ^ 971 : ℕ) : ℚ)

theorem EPS_pos : 0 < EPS := by norm_num [EPS]

theorem DBLMAX_pos : 0 < DBLMAX := by norm_num [DBLMAX]

/-- `Point`: an immutable pair of doubles (modelled as exact rationals). -/
structure Point where
  x : ℚ
  y : ℚ
  deriving DecidableEq

instance : Inhabited Point := ⟨⟨0, 0⟩⟩

/-- `Point::Quadrant`. -/
inductive Quadrant where
  | First
  | Second
  | Third
  | Fourth

/-- `Point::in_quad`: epsilon-tolerant closed-quadrant test, anchored at `self`. -/
def Point.in_quad (self other : Point) (quad : Quadrant) : Bool :=
  match quad with
  | .First => decide (other.x > self.x - EPS ∧ other.y > self.y - EPS)
  | .Second => decide (other.x < self.x + EPS ∧ other.y > self.y - EPS)
  | .Third => decide (other.x < self.x + EPS ∧ other.y < self.y + EPS)
  | .Fourth => decide (other.x > self.x - EPS ∧ other.y < self.y + EPS)

/-- `Point::operator==`: epsilon-tolerant equality on both coordinates. -/
def Point.eqB (self other : Point) : Bool :=
  decide (|self.x - other.x| < EPS ∧ |self.y - other.y| < EPS)

/-- `Point::operator<`: lexicographic with epsilon tolerance on the x tie. -/
def Point.ltB (self other : Point) : Bool :=
  decide (self.x < other.x ∨ (|self.x - other.x| < EPS ∧ self.y < other.y))

/-- Exact value of a double arising in the distance computations: either a
rational produced by plain arithmetic (`lin`) or `std::sqrt` of a rational
(`sqrtOf`).  `toReal` gives the represented real number. -/
inductive D where
  | lin (q : ℚ)
  | sqrtOf (q : ℚ)
  deriving DecidableEq

/-- The real number represented by a `D` value. -/
noncomputable def D.toReal : D → ℝ
  | .lin q => (q : ℝ)
  | .sqrtOf q => Real.sqrt (q : ℝ)

/-- Decidable strict comparison of two `D` values, agreeing with `<` on the
represented reals (`D.lt_iff`).  Mirrors `operator<` on doubles. -/
def D.lt : D → D → Bool
  | .lin a, .lin b => decide (a < b)
  | .sqrtOf a, .lin b => decide (0 < b ∧ (a < b * b ∨ a ≤ 0))
  | .lin a, .sqrtOf b => decide (a < 0 ∨ (0 ≤ a ∧ a * a < b))
  | .sqrtOf a, .sqrtOf b => decide (max a 0 < b)

theorem D.lt_iff (a b : D) : D.lt a b = true ↔ a.toReal < b.toReal := by
  cases a with
  | lin qa =>
    cases b with
    | lin qb => simp [D.lt, D.toReal]
    | sqrtOf qb =>
      simp only [D.lt, D.toReal, decide_eq_true_eq]
      constructor
      · rintro (h | ⟨h0, h⟩)
        · exact lt_of_lt_of_le (by exact_mod_cast h) (Real.sqrt_nonneg _)
        · rw [show ((qa : ℝ)) = ((qa : ℝ)) from rfl]
          have h0R : (0 : ℝ) ≤ (qa : ℝ) := by exact_mod_cast h0
          rw [Real.lt_sqrt h0R]
          have : ((qa : ℝ)) ^ 2 = ((qa * qa : ℚ) : ℝ) := by push_cast; ring
          rw [this]
          exact_mod_cast h
      · intro h
        rcases lt_or_le qa 0 with h0 | h0
        · exact Or.inl h0
        · refine Or.inr ⟨h0, ?_⟩
          have h0R : (0 : ℝ) ≤ (qa : ℝ) := by exact_mod_cast h0
          rw [Real.lt_sqrt h0R] at h
          have : ((qa : ℝ)) ^ 2 = ((qa * qa : ℚ) : ℝ) := by push_cast; ring
          rw [this] at h
          exact_mod_cast h
  | sqrtOf qa =>
    cases b with
    | lin qb =>
      simp only [D.lt, D.toReal, decide_eq_true_eq]
      constructor
      · rintro ⟨h0, h | h⟩
        · have h0R : (0 : ℝ) < (qb : ℝ) := by exact_mod_cast h0
          rw [Real.sqrt_lt' h0R]
          have : ((qb : ℝ)) ^ 2 = ((qb * qb : ℚ) : ℝ) := by push_cast; ring
          rw [this]
          exact_mod_cast h
        · have : Real.sqrt (qa : ℝ) = 0 :=
            Real.sqrt_eq_zero_of_nonpos (by exact_mod_cast h)
          rw [this]; exact_mod_cast h0
      · intro h
        have h0R : (0 : ℝ) < (qb : ℝ) := lt_of_le_of_lt (Real.sqrt_nonneg _) h
        refine ⟨by exact_mod_cast h0R, ?_⟩
        rcases le_or_lt qa 0 with hqa | hqa
        · exact Or.inr hqa
        · refine Or.inl ?_
          rw [Real.sqrt_lt' h0R] at h
          have : ((qb : ℝ)) ^ 2 = ((qb * qb : ℚ) : ℝ) := by push_cast; ring
          rw [this] at h
          exact_mod_cast h
    | sqrtOf qb =>
      simp only [D.lt, D.toReal, decide_eq_true_eq]
      constructor
      · intro h
        rcases le_or_lt qa 0 with hqa | hqa
        · rw [max_eq_right hqa] at h
          have : Real.sqrt (qa : ℝ) = 0 :=
            Real.sqrt_eq_zero_of_nonpos (by exact_mod_cast hqa)
          rw [this]
          exact Real.sqrt_pos.mpr (by exact_mod_cast h)
        · rw [max_eq_left (le_of_lt hqa)] at h
          exact Real.sqrt_lt_sqrt (by positivity) (by exact_mod_cast h)
      · intro h
        have hb : (0 : ℝ) < Real.sqrt (qb : ℝ) :=
          lt_of_le_of_lt (Real.sqrt_nonneg _) h
        have hbq : (0 : ℚ) < qb := by exact_mod_cast Real.sqrt_pos.mp hb
        rcases le_or_lt qa 0 with hqa | hqa
        · simpa [max_eq_right hqa] using hbq
        · have h0R : (0 : ℝ) ≤ (qa : ℝ) := by positivity
          rw [Real.sqrt_lt_sqrt_iff h0R] at h
          have : qa < qb := by exact_mod_cast h
          simpa [max_eq_left (le_of_lt hqa)] using this

theorem D.not_lt_iff (a b : D) : D.lt a b = false ↔ b.toReal ≤ a.toReal := by
  rw [← not_lt, ← D.lt_iff]
  cases h : D.lt a b <;> simp [h]

/-- `Point::sqr`. -/
def sqr (v : ℚ) : ℚ := v * v

/-- The squared Euclidean distance between two points (the radicand computed by
`Point::distance`). -/
def dist2 (self other : Point) : ℚ := sqr (self.x - other.x) + sqr (self.y - other.y)

/-- `Point::distance`: `std::sqrt` of the sum of squared coordinate gaps. -/
def Point.distance (self other : Point) : D := .sqrtOf (dist2 self other)

theorem dist2_nonneg (a b : Point) : 0 ≤ dist2 a b := by
  have h1 : 0 ≤ sqr (a.x - b.x) := mul_self_nonneg _
  have h2 : 0 ≤ sqr (a.y - b.y) := mul_self_nonneg _
  simpa [dist2] using add_nonneg h1 h2

/-- `Rect`: axis-aligned box given by its two defining corners. -/
structure Rect where
  left_bottom : Point
  right_top : Point
  deriving DecidableEq

def Rect.xmin (r : Rect) : ℚ := r.left_bottom.x

def Rect.ymin (r : Rect) : ℚ := r.left_bottom.y

def Rect.xmax (r : Rect) : ℚ := r.right_top.x

def Rect.ymax (r : Rect) : ℚ := r.right_top.y

/-- `Rect::contains`: epsilon-tolerant containment. -/
def Rect.containsB (r : Rect) (p : Point) : Bool :=
  r.left_bottom.in_quad p .First && r.right_top.in_quad p .Third

/-- `Rect::intersects`: separating-axis test with exact comparisons. -/
def Rect.intersectsB (r other : Rect) : Bool :=
  !(decide (other.ymin > r.ymax) || decide (other.ymax < r.ymin) ||
    decide (other.xmin > r.xmax) || decide (other.xmax < r.xmin))

/-- `Rect::distance`: corner/edge/quadrant dispatch computing the pruning bound
for nearest-neighbour search. -/
def Rect.distD (r : Rect) (p : Point) : D :=
  if r.containsB p then .lin 0
  else if r.right_top.in_quad p .First then r.right_top.distance p
  else if r.left_bottom.in_quad p .Third then r.left_bottom.distance p
  else if r.right_top.in_quad p .Fourth then
    (if p.y > r.ymin then .lin (p.x - r.xmax) else p.distance ⟨r.xmax, r.ymin⟩)
  else if r.left_bottom.in_quad p .Second then
    (if p.y > r.ymin then .lin (r.xmin - p.x) else p.distance ⟨r.xmin, r.ymax⟩)
  else
    (if p.y > r.ymax then .lin (p.y - r.ymax) else .lin (r.ymin - p.y))

/-- The rect is geometrically well-formed: `left_bottom` does not exceed
`right_top` componentwise (the documented precondition). -/
def Rect.wfB (r : Rect) : Bool :=
  decide (r.xmin ≤ r.xmax ∧ r.ymin ≤ r.ymax)

/-- Exact (tolerance-free) membership of a point in the closed box of `r`. -/
def Rect.memB (r : Rect) (p : Point) : Bool :=
  decide (r.xmin ≤ p.x ∧ p.x ≤ r.xmax ∧ r.ymin ≤ p.y ∧ p.y ≤ r.ymax)

/-- `kdtree::PointSet::Node`.  A null `std::shared_ptr<Node>` is `nil`; a node
stores its point, its cached bounding rect and subtree size, and its two
children.  The non-owning parent back-reference is not stored: iteration is
modelled by paths from the root (the chain of parents of a node is exactly its
access path, which `set_parents` keeps consistent with the structure). -/
inductive Node where
  | nil
  | mk (point : Point) (rect : Rect) (size : ℕ) (left : Node) (right : Node)
  deriving DecidableEq

/-- `kdtree::PointSet::get_size`: 0 for null, else the stored size field. -/
def Node.get_size : Node → ℕ
  | .nil => 0
  | .mk _ _ s _ _ => s

/-- `Node::update_rect_by`: extend `r` by the stored rect of a child (no-op for
a null child). -/
def Node.update_rect_by (r : Rect) : Node → Rect
  | .nil => r
  | .mk _ nr _ _ _ =>
      ⟨⟨min r.xmin nr.xmin, min r.ymin nr.ymin⟩, ⟨max r.xmax nr.xmax, max r.ymax nr.ymax⟩⟩

/-- `Node::update_data`: recompute the stored size and rect from the point and
the children (the early return when both children are null coincides with
applying `update_rect_by` to two null children). -/
def Node.update_data : Node → Node
  | .nil => .nil
  | .mk p _ _ l r =>
      .mk p (Node.update_rect_by (Node.update_rect_by ⟨p, p⟩ l) r)
        (1 + l.get_size + r.get_size) l r

/-- In-order point sequence of a subtree (left, node, right); this is the order
of `move_to_vector` / `to_vector` and of the threaded full traversal. -/
def Node.inorder : Node → List Point
  | .nil => []
  | .mk p _ _ l r => l.inorder ++ p :: r.inorder

/-- Number of nodes actually present in a subtree (independent of the cached
size fields). -/
def Node.count : Node → ℕ
  | .nil => 0
  | .mk _ _ _ l r => 1 + l.count + r.count

/-- `kdtree::PointSet::less`: comparison on the current splitting axis. -/
def less (lhs rhs : Point) (check_x : Bool) : Bool :=
  if check_x then decide (lhs.x < rhs.x) else decide (lhs.y < rhs.y)

/-- `kdtree::PointSet::alpha = 0.65` (exact rational; the C++ double constant
0.65 differs from it by less than 2⁻⁵³, which never changes a comparison
against the integer sizes used in this development). -/
def alpha : ℚ := 65 / 100

/-- `kdtree::PointSet::balanced`: both children within the weight-balance bound
(reads the stored size fields; the source never calls it on null). -/
def Node.balancedB : Node → Bool
  | .nil => true
  | .mk _ _ s l r =>
      decide ((l.get_size : ℚ) ≤ alpha * (s : ℚ) ∧ (r.get_size : ℚ) ≤ alpha * (s : ℚ))

/-- One insertion step of the ascending-order sort used to model `std::sort`
with comparator `less`.  `std::sort` is unstable, so any ascending reordering
is a valid model; this one is deterministic. -/
def insertSorted (cx : Bool) (p : Point) : List Point → List Point
  | [] => [p]
  | q :: rest => if less p q cx then p :: q :: rest else q :: insertSorted cx p rest

/-- Model of `std::sort(begin, end, less(·,·,check_x))`. -/
def sortAxis (l : List Point) (cx : Bool) : List Point :=
  l.foldr (insertSorted cx) []

theorem insertSorted_perm (cx : Bool) (p : Point) (l : List Point) :
    (insertSorted cx p l).Perm (p :: l) := by
  induction l with
  | nil => simp [insertSorted]
  | cons q rest ih =>
    by_cases h : less p q cx = true
    · simp [insertSorted, h]
    · simp only [insertSorted, h, Bool.false_eq_true, if_false]
      exact ((ih.cons q).trans (List.Perm.swap p q rest))

theorem sortAxis_perm (l : List Point) (cx : Bool) : (sortAxis l cx).Perm l := by
  induction l with
  | nil => simp [sortAxis]
  | cons q rest ih =>
    have : sortAxis (q :: rest) cx = insertSorted cx q (sortAxis rest cx) := rfl
    rw [this]
    exact (insertSorted_perm cx q (sortAxis rest cx)).trans (ih.cons q)

theorem sortAxis_length (l : List Point) (cx : Bool) :
    (sortAxis l cx).length = l.length :=
  (sortAxis_perm l cx).length_eq

/-- The decrement loop on the median pointer in `build_tree`: starting from
index `k`, move left while the previous element is not strictly less on the
current axis. -/
def medianGo (s : List Point) (cx : Bool) : ℕ → ℕ
  | 0 => 0
  | k + 1 =>
    match s[k]?, s[k + 1]? with
    | some a, some b => if less a b cx then k + 1 else medianGo s cx k
    | _, _ => k + 1

/-- Median index selected by `build_tree`: start at `length / 2`, then shift
left over the run of axis-ties. -/
def medianShift (s : List Point) (cx : Bool) : ℕ := medianGo s cx (s.length / 2)

theorem medianGo_le (s : List Point) (cx : Bool) (k : ℕ) : medianGo s cx k ≤ k := by
  induction k with
  | zero => simp [medianGo]
  | succ n ih =>
    unfold medianGo
    rcases hs : s[n]? with _ | a
    · simp
    · rcases hs2 : s[n + 1]? with _ | b
      · simp
      · by_cases h : less a b cx = true
        · simp [h]
        · simp only [h, Bool.false_eq_true, if_false]
          exact le_trans ih (Nat.le_succ n)

theorem medianShift_lt (s : List Point) (cx : Bool) (hs : s ≠ []) :
    medianShift s cx < s.length := by
  have h1 : medianShift s cx ≤ s.length / 2 := medianGo_le s cx (s.length / 2)
  have h2 : 0 < s.length := List.length_pos.mpr hs
  exact lt_of_le_of_lt h1 (Nat.div_lt_self h2 (by norm_num))

/-- Fuel-indexed body of `build_tree` (the fuel makes the recursion
structural, so the kernel can evaluate it; `build_tree` supplies enough fuel
for the recursion never to hit the base case). -/
def buildGo : ℕ → List Point → Bool → Node
  | 0, _, _ => .nil
  | fuel + 1, l, cx =>
    if l = [] then .nil
    else
      let s := sortAxis l cx
      let m := medianShift s cx
      Node.update_data
        (.mk (s.getD m default) ⟨default, default⟩ 1
          (buildGo fuel (s.take m) (!cx)) (buildGo fuel (s.drop (m + 1)) (!cx)))

/-- `kdtree::PointSet::build_tree`: sort the slice on the current axis, select
the (tie-shifted) median as the root, recurse on the two remaining slices with
the opposite axis, and recompute the root's data.  (In the source the slice
holds existing `shared_ptr<Node>`s whose children, size and rect are all
overwritten; only the points matter, so the model passes points.) -/
def build_tree (l : List Point) (cx : Bool) : Node := buildGo l.length l cx

/-- `kdtree::PointSet::contains`: alternating-axis descent with the
epsilon-tolerant equality test at every visited node. -/
def Node.containsFrom : Node → Point → Bool → Bool
  | .nil, _, _ => false
  | .mk q _ _ l r, p, cx =>
    if q.eqB p then true
    else if less p q cx then l.containsFrom p (!cx) else r.containsFrom p (!cx)

/-- `contains(point)` of the public interface (descent starts on the x axis). -/
def Node.containsB (t : Node) (p : Point) : Bool := t.containsFrom p true

/-- `kdtree::PointSet::insert`: returns the updated subtree together with the
topmost unbalanced node found on the unwinding, identified by its direction
path from this subtree's root, paired with that node's axis flag (the C++
version returns a pointer into the tree; a path addresses the same node). -/
def insert : Node → Point → Bool → Node × Option (List Bool × Bool)
  | .nil, p, _ => (.mk p ⟨p, p⟩ 1 .nil .nil, none)
  | .mk q rect sz l r, p, cx =>
    if q.eqB p then (.mk q rect sz l r, none)
    else if less p q cx then
      let res := insert l p (!cx)
      let n := Node.update_data (.mk q rect sz res.1 r)
      if n.balancedB then (n, res.2.map fun pb => (true :: pb.1, pb.2))
      else (n, some ([], cx))
    else
      let res := insert r p (!cx)
      let n := Node.update_data (.mk q rect sz l res.1)
      if n.balancedB then (n, res.2.map fun pb => (false :: pb.1, pb.2))
      else (n, some ([], cx))

/-- `kdtree::PointSet::rebuild_tree`: flatten the subtree in order
(`move_to_vector`) and rebuild it with its original axis. -/
def rebuildNode (n : Node) (cx : Bool) : Node := build_tree n.inorder cx

/-- Replace the subtree at the given direction path by its rebuilt form
(models `*broken = rebuild_tree(*broken, check_x)` in `put`). -/
def rebuildAt : Node → List Bool → Bool → Node
  | n, [], cx => rebuildNode n cx
  | .nil, _ :: _, _ => .nil
  | .mk q rect sz l r, true :: rest, cx => .mk q rect sz (rebuildAt l rest cx) r
  | .mk q rect sz l r, false :: rest, cx => .mk q rect sz l (rebuildAt r rest cx)

/-- `kdtree::PointSet::put`: insert, then rebuild the recorded topmost
unbalanced subtree, if any. -/
def put (t : Node) (p : Point) : Node :=
  match insert t p true with
  | (n, none) => n
  | (n, some (path, cx)) => rebuildAt n path cx

/-- Left fold of `put` over a list: a sequence of `put` calls starting from a
given set. -/
def putList (t : Node) (ps : List Point) : Node := ps.foldl put t

/-- `kdtree::PointSet::range` (recursive helper): prune on bounding-rect
intersection, emit the node's point when the query rect contains it, recurse
into children after their own intersection pre-check.  `acc` is the result
vector being appended to. -/
def rangeGo : Node → Rect → List Point → List Point
  | .nil, _, acc => acc
  | .mk q nrect _ l r, rect, acc =>
    if !(nrect.intersectsB rect) then acc
    else
      let acc1 := if rect.containsB q then acc ++ [q] else acc
      let acc2 :=
        match l with
        | .nil => acc1
        | .mk _ lrect _ _ _ =>
          if lrect.intersectsB rect then rangeGo l rect acc1 else acc1
      match r with
      | .nil => acc2
      | .mk _ rrect _ _ _ =>
        if rrect.intersectsB rect then rangeGo r rect acc2 else acc2

/-- The match list materialized by `range(rect)` (the list wrapped by the
returned iterator pair). -/
def rangeList (t : Node) (rect : Rect) : List Point := rangeGo t rect []

/-- `kdtree::PointSet::nearest` (recursive helper): branch-and-bound with the
state `(current_min, current_ans)`; prune a subtree when its rect's distance
bound is not below the current best. -/
def nearestGo : Node → Point → D × Option Point → D × Option Point
  | .nil, _, st => st
  | .mk q nrect _ l r, p, st =>
    if !(D.lt (nrect.distD p) st.1) then st
    else
      let st1 := if D.lt (p.distance q) st.1 then (p.distance q, some q) else st
      nearestGo r p (nearestGo l p st1)

/-- `nearest(point)` of the public interface: best distance starts at the
largest finite double, answer starts empty. -/
def nearestOpt (t : Node) (p : Point) : Option Point :=
  (nearestGo t p (.lin DBLMAX, none)).2

/-- Directions from a node down to the leftmost node of its subtree
(the descend-left loop of `begin` / of `next` after stepping right). -/
def leftmostDirs : Node → List Bool
  | .nil => []
  | .mk _ _ _ l _ =>
    match l with
    | .nil => []
    | .mk _ _ _ _ _ => true :: leftmostDirs l

/-- Node reached from `t` by following a direction path (`true` = left). -/
def nodeAt : Node → List Bool → Node
  | t, [] => t
  | .nil, _ :: _ => .nil
  | .mk _ _ _ l _, true :: rest => nodeAt l rest
  | .mk _ _ _ _ r, false :: rest => nodeAt r rest

/-- Point stored at a node (unused junk value for null). -/
def Node.pointOf : Node → Point
  | .nil => default
  | .mk p _ _ _ _ => p

/-- `kdtree::PointSet::next`: in-order successor of the node addressed by the
path.  If a right child exists, the successor is the leftmost node of the right
subtree; otherwise the walk ascends the chain of parents until it comes from a
left child (a path of directions encodes exactly that parent chain, so popping
path entries is the `parent.lock()` walk of the source). -/
def nextPath : Node → List Bool → Option (List Bool)
  | t, [] =>
    (match t with
     | .nil => none
     | .mk _ _ _ _ .nil => none
     | .mk _ _ _ _ (.mk p rect sz rl rr) =>
         some (false :: leftmostDirs (.mk p rect sz rl rr)))
  | .nil, _ :: _ => none
  | .mk _ _ _ l _, true :: rest =>
    (match nextPath l rest with
     | some q => some (true :: q)
     | none => some [])
  | .mk _ _ _ _ r, false :: rest =>
    (match nextPath r rest with
     | some q => some (false :: q)
     | none => none)

/-- `kdtree::PointSet::begin`: path of the leftmost node, or `none` (the null
iterator) for the empty tree. -/
def beginPath (t : Node) : Option (List Bool) :=
  match t with
  | .nil => none
  | .mk _ _ _ _ _ => some (leftmostDirs t)

/-- Points produced by repeatedly dereferencing and advancing the full
traversal cursor, bounded by `fuel` steps. -/
def iterFrom (t : Node) : Option (List Bool) → ℕ → List Point
  | _, 0 => []
  | none, _ + 1 => []
  | some path, fuel + 1 => (nodeAt t path).pointOf :: iterFrom t (nextPath t path) fuel

/-- Full begin-to-end traversal of the tree through the cursor. -/
def iterList (t : Node) : List Point := iterFrom t (beginPath t) t.count

/-- First maximal element (by distance to `p`) of the heap contents; models the
element sitting at the front of the `std::make_heap`/`push_heap` max-heap.
Among tied maxima the source's choice depends on the heap layout; the claims
proved below only evaluate it where the maximum is unique. -/
def knnMax (p : Point) : List Point → Point
  | [] => default
  | x :: rest => rest.foldl (fun m e => if D.lt (p.distance m) (p.distance e) then e else m) x

/-- One step of the k-nearest scan: replace the heap's worst element when the
candidate is strictly closer (`pop_heap` removes a maximal element, the
candidate is pushed in its place). -/
def knnStep (p : Point) (heap : List Point) (cur : Point) : List Point :=
  let m := knnMax p heap
  if D.lt (p.distance cur) (p.distance m) then heap.erase m ++ [cur] else heap

/-- `kdtree::PointSet::nearest(point, k)`: empty for `k = 0`; the whole
traversal when `k ≥ size()`; otherwise seed a k-element max-heap with the first
`k` in-order points and scan the remaining traversal. -/
def knearestList (t : Node) (p : Point) (k : ℕ) : List Point :=
  if k = 0 then []
  else if t.get_size ≤ k then iterList t
  else (iterList t).drop k |>.foldl (knnStep p) ((iterList t).take k)

/-- `kdtree::PointSet::iterator` state: the `std::variant` over the two
backings.  `vlist` is the materialized-list form (a `std::vector<Node*>`
consumed from the back; nodes are represented by their points here, which is
faithful for the emptiness/equality facts proved below).  `vnode` is the
threaded-traversal form holding the current node pointer (`none` = null),
represented by its access path. -/
inductive IterData where
  | vlist (l : List Point)
  | vnode (o : Option (List Bool))
  deriving DecidableEq

/-- `operator++`: pop the back of the list form, step to the in-order successor
in the node form (advancing a null node iterator is undefined behavior in the
source; the model leaves it at null). -/
def IterData.advance (t : Node) : IterData → IterData
  | .vlist l => .vlist l.dropLast
  | .vnode none => .vnode none
  | .vnode (some path) => .vnode (nextPath t path)

/-- `end()`: a node-form iterator holding a null pointer. -/
def endIter : IterData := .vnode none

/-- A default-constructed `iterator`: the variant holds its first alternative,
a default-constructed (empty) vector.  This is the second element of the pairs
returned by `range` and k-nearest. -/
def defaultIter : IterData := .vlist []

/-- Equivalence used by `std::set<Point>` (ordered by `Point::operator<`):
neither element compares less than the other. -/
def Point.equivB (a b : Point) : Bool := !(a.ltB b) && !(b.ltB a)

/-- One `std::set<Point>::emplace`: keep the set unchanged when an equivalent
element is present.  (The position where the element lands in the ordered set
does not matter for the membership-level facts proved below, so the model
appends.) -/
def setInsert (s : List Point) (p : Point) : List Point :=
  if s.any fun q => q.equivB p then s else s ++ [p]

/-- `Node`'s copy constructor: copies point, rect and the children recursively;
its initializer list omits `size`, so every copied node gets the member default
`size = 1`. -/
def copyNode : Node → Node
  | .nil => .nil
  | .mk p rect _ l r => .mk p rect 1 (copyNode l) (copyNode r)

/-- `kdtree::PointSet::set_parents` dereferences its argument (`node->left`)
unconditionally; on a null node that is undefined behavior, modelled as an
error result. -/
def set_parentsE : Node → Except Unit Unit
  | .nil => .error ()
  | .mk _ _ _ _ _ => .ok ()

/-- The loading constructor `PointSet(filename)` after parsing: collapse the
point list through `std::set<Point>`, bulk-build a balanced tree starting on
the x axis, then call `set_parents(m_root)` unconditionally — on an empty
point list the built root is null and that call dereferences it (undefined
behavior, modelled as the error result). -/
def ofList (ps : List Point) : Except Unit Node :=
  match set_parentsE (build_tree (ps.foldl setInsert []) true) with
  | .error e => .error e
  | .ok _ => .ok (build_tree (ps.foldl setInsert []) true)

/-- `kdtree::PointSet`'s copy constructor: deep-copy the node graph, then call
`set_parents(m_root)` unconditionally. -/
def copyCtorE (t : Node) : Except Unit Node :=
  match set_parentsE (copyNode t) with
  | .error e => .error e
  | .ok _ => .ok (copyNode t)

/-- The stored size fields are consistent: every node's size equals one plus
its children's stored sizes. -/
def SizeOkB : Node → Bool
  | .nil => true
  | .mk _ _ s l r => decide (s = 1 + l.get_size + r.get_size) && SizeOkB l && SizeOkB r

/-- The stored rects are consistent: every node's rect is the axis-aligned
union of the node's own point and its children's stored rects (what
`update_data` computes). -/
def RectOkB : Node → Bool
  | .nil => true
  | .mk p rect _ l r =>
      decide (rect = Node.update_rect_by (Node.update_rect_by ⟨p, p⟩ l) r) &&
        RectOkB l && RectOkB r

/-- Both structural invariants. -/
def InvB (t : Node) : Bool := SizeOkB t && RectOkB t

/-- Every node (not only the root) satisfies the weight-balance bound. -/
def AllBalancedB : Node → Bool
  | .nil => true
  | .mk p rect s l r =>
      Node.balancedB (.mk p rect s l r) && AllBalancedB l && AllBalancedB r

/-!  ### Multiset-level behaviour of build, insert, rebuild and put  -/

theorem count_eq_length_inorder (t : Node) : t.count = t.inorder.length := by
  induction t with
  | nil => rfl
  | mk p rect s l r ihl ihr => simp [Node.count, Node.inorder, ihl, ihr]; omega

theorem take_getD_drop (s : List Point) (m : ℕ) (hm : m < s.length) :
    s.take m ++ s.getD m default :: s.drop (m + 1) = s := by
  have h1 : s.getD m default = s[m] := List.getD_eq_getElem s default hm
  have h2 : s.drop m = s[m] :: s.drop (m + 1) := List.drop_eq_getElem_cons hm
  calc s.take m ++ s.getD m default :: s.drop (m + 1)
      = s.take m ++ s.drop m := by rw [h1, h2]
    _ = s := List.take_append_drop m s

theorem buildGo_inorder_perm (fuel : ℕ) :
    ∀ (l : List Point) (cx : Bool), l.length ≤ fuel →
      (buildGo fuel l cx).inorder.Perm l := by
  induction fuel with
  | zero =>
    intro l cx h
    have hl : l = [] := List.eq_nil_of_length_eq_zero (Nat.le_zero.mp h)
    simp [buildGo, hl, Node.inorder]
  | succ n ih =>
    intro l cx h
    by_cases hl : l = []
    · simp [buildGo, hl, Node.inorder]
    · simp only [buildGo, hl, if_neg, not_false_iff]
      have hs : sortAxis l cx ≠ [] := by
        intro hcon
        exact hl (List.eq_nil_of_length_eq_zero
          (by simpa [sortAxis_length] using congrArg List.length hcon))
      have hm := medianShift_lt (sortAxis l cx) cx hs
      have hlen := sortAxis_length l cx
      have hpos : 0 < l.length := List.length_pos.mpr hl
      have ihl := ih ((sortAxis l cx).take (medianShift (sortAxis l cx) cx)) (!cx)
        (by simp only [List.length_take]; omega)
      have ihr := ih ((sortAxis l cx).drop (medianShift (sortAxis l cx) cx + 1)) (!cx)
        (by simp only [List.length_drop]; omega)
      simp only [Node.update_data, Node.inorder]
      refine List.Perm.trans (ihl.append (ihr.cons _)) ?_
      rw [take_getD_drop _ _ hm]
      exact sortAxis_perm l cx

theorem build_tree_inorder_perm (l : List Point) (cx : Bool) :
    (build_tree l cx).inorder.Perm l :=
  buildGo_inorder_perm l.length l cx (le_refl _)

theorem rebuildAt_inorder_perm (t : Node) (path : List Bool) (cx : Bool) :
    (rebuildAt t path cx).inorder.Perm t.inorder := by
  induction path generalizing t cx with
  | nil =>
    simpa [rebuildAt, rebuildNode] using build_tree_inorder_perm t.inorder cx
  | cons d rest ih =>
    cases t with
    | nil => simp [rebuildAt]
    | mk q rect sz l r =>
      cases d
      · simpa [rebuildAt, Node.inorder] using (List.Perm.refl l.inorder).append ((ih r cx).cons q)
      · simpa [rebuildAt, Node.inorder] using (ih l cx).append ((List.Perm.refl r.inorder).cons q)

/-- The updated subtree returned by `insert`, disentangled from the
broken-ancestor bookkeeping (which only affects the second component). -/
theorem insert_fst (q : Point) (rect : Rect) (sz : ℕ) (l r : Node) (p : Point) (cx : Bool) :
    (insert (.mk q rect sz l r) p cx).1 =
      if q.eqB p then .mk q rect sz l r
      else if less p q cx then Node.update_data (.mk q rect sz (insert l p (!cx)).1 r)
      else Node.update_data (.mk q rect sz l (insert r p (!cx)).1) := by
  rw [insert]
  by_cases he : q.eqB p = true
  · simp [he]
  · by_cases hless : less p q cx = true
    · simp only [he, Bool.false_eq_true, if_false, hless, if_true]
      by_cases hb : (Node.update_data (.mk q rect sz (insert l p (!cx)).1 r)).balancedB = true <;>
        simp [hb]
    · simp only [he, Bool.false_eq_true, if_false, hless]
      by_cases hb : (Node.update_data (.mk q rect sz l (insert r p (!cx)).1)).balancedB = true <;>
        simp [hb]

theorem inorder_update_data (q : Point) (rect : Rect) (sz : ℕ) (l r : Node) :
    (Node.update_data (.mk q rect sz l r)).inorder = l.inorder ++ q :: r.inorder := by
  simp [Node.update_data, Node.inorder]

theorem insert_inorder_perm (t : Node) (p : Point) (cx : Bool) :
    (insert t p cx).1.inorder.Perm
      (if t.containsFrom p cx then t.inorder else p :: t.inorder) := by
  induction t generalizing cx with
  | nil => simp [insert, Node.containsFrom, Node.inorder]
  | mk q rect sz l r ihl ihr =>
    by_cases he : q.eqB p = true
    · simp [insert_fst, Node.containsFrom, he]
    · by_cases hless : less p q cx = true
      · have ih := ihl (!cx)
        rw [insert_fst]
        simp only [he, Bool.false_eq_true, if_false, hless, if_true,
          inorder_update_data, Node.containsFrom, Node.inorder]
        by_cases hc : l.containsFrom p (!cx) = true
        · rw [if_pos hc] at ih
          rw [if_pos hc]
          exact ih.append (List.Perm.refl _)
        · rw [if_neg hc] at ih
          rw [if_neg hc]
          exact ih.append (List.Perm.refl _)
      · have ih := ihr (!cx)
        rw [insert_fst]
        simp only [he, Bool.false_eq_true, if_false, hless,
          inorder_update_data, Node.containsFrom, Node.inorder]
        by_cases hc : r.containsFrom p (!cx) = true
        · rw [if_pos hc] at ih
          rw [if_pos hc]
          exact (List.Perm.refl _).append (ih.cons q)
        · rw [if_neg hc] at ih
          rw [if_neg hc]
          refine List.Perm.trans ((List.Perm.refl l.inorder).append (ih.cons q)) ?_
          have h1 : l.inorder ++ q :: p :: r.inorder =
              (l.inorder ++ [q]) ++ p :: r.inorder := by simp
          have h2 : p :: (l.inorder ++ q :: r.inorder) =
              p :: ((l.inorder ++ [q]) ++ r.inorder) := by simp
          rw [h1, h2]
          exact List.perm_middle

/-- `put` at the multiset level: inserting an uncontained point adds exactly
that point; inserting a contained point leaves the stored points unchanged
(even when the balance check triggers an internal rebuild). -/
theorem put_inorder_perm (t : Node) (p : Point) :
    (put t p).inorder.Perm
      (if t.containsB p then t.inorder else p :: t.inorder) := by
  have hins := insert_inorder_perm t p true
  rw [put]
  rcases hbr : insert t p true with ⟨n, br⟩
  have hn : n = (insert t p true).1 := by rw [hbr]
  cases br with
  | none =>
    subst hn
    exact hins
  | some pc =>
    rcases pc with ⟨path, cx⟩
    refine (rebuildAt_inorder_perm n path cx).trans ?_
    subst hn
    exact hins

/-!  ### The size and rect invariants  -/

/-- Stored rect of a node (junk default for null; only read on non-null
nodes). -/
def Node.rectOf : Node → Rect
  | .nil => ⟨default, default⟩
  | .mk _ rect _ _ _ => rect

/-- `q` lies in the closed box of `r` (exact comparisons); the `Prop` form of
`Rect.memB`. -/
def Bounds (r : Rect) (q : Point) : Prop :=
  r.xmin ≤ q.x ∧ q.x ≤ r.xmax ∧ r.ymin ≤ q.y ∧ q.y ≤ r.ymax

theorem memB_iff (r : Rect) (q : Point) : r.memB q = true ↔ Bounds r q := by
  simp [Rect.memB, Bounds]

theorem buildGo_inv (fuel : ℕ) :
    ∀ (l : List Point) (cx : Bool),
      SizeOkB (buildGo fuel l cx) = true ∧ RectOkB (buildGo fuel l cx) = true := by
  induction fuel with
  | zero => intro l cx; simp [buildGo, SizeOkB, RectOkB]
  | succ n ih =>
    intro l cx
    by_cases hl : l = []
    · simp [buildGo, hl, SizeOkB, RectOkB]
    · simp only [buildGo, hl, if_neg, not_false_iff]
      obtain ⟨ihls, ihlr⟩ :=
        ih ((sortAxis l cx).take (medianShift (sortAxis l cx) cx)) (!cx)
      obtain ⟨ihrs, ihrr⟩ :=
        ih ((sortAxis l cx).drop (medianShift (sortAxis l cx) cx + 1)) (!cx)
      constructor
      · simp [Node.update_data, SizeOkB, ihls, ihrs]
      · simp [Node.update_data, RectOkB, ihlr, ihrr]

theorem build_tree_inv (l : List Point) (cx : Bool) :
    SizeOkB (build_tree l cx) = true ∧ RectOkB (build_tree l cx) = true :=
  buildGo_inv l.length l cx

theorem sizeOk_get_size_eq_count (t : Node) (h : SizeOkB t = true) :
    t.get_size = t.count := by
  induction t with
  | nil => rfl
  | mk p rect s l r ihl ihr =>
    simp only [SizeOkB, Bool.and_eq_true, decide_eq_true_eq] at h
    obtain ⟨⟨hs, hl⟩, hr⟩ := h
    rw [show (Node.mk p rect s l r).count = 1 + l.count + r.count from rfl,
      show (Node.mk p rect s l r).get_size = s from rfl, hs, ihl hl, ihr hr]

theorem build_tree_get_size (l : List Point) (cx : Bool) :
    (build_tree l cx).get_size = l.length := by
  rw [sizeOk_get_size_eq_count _ (build_tree_inv l cx).1, count_eq_length_inorder]
  exact (build_tree_inorder_perm l cx).length_eq

theorem build_tree_ne_nil (l : List Point) (cx : Bool) (hl : l ≠ []) :
    build_tree l cx ≠ .nil := by
  intro h
  have := build_tree_get_size l cx
  rw [h] at this
  simp only [Node.get_size] at this
  exact hl (List.eq_nil_of_length_eq_zero this.symm)

theorem inorder_eq_nil_iff (t : Node) : t.inorder = [] ↔ t = .nil := by
  cases t with
  | nil => simp [Node.inorder]
  | mk p rect s l r => simp [Node.inorder]

theorem insert_inv (t : Node) (p : Point) (cx : Bool)
    (hs : SizeOkB t = true) (hr : RectOkB t = true) :
    SizeOkB (insert t p cx).1 = true ∧ RectOkB (insert t p cx).1 = true := by
  induction t generalizing cx with
  | nil =>
    constructor
    · simp [insert, SizeOkB, Node.get_size]
    · simp [insert, RectOkB, Node.update_rect_by]
  | mk q rect sz l r ihl ihr =>
    simp only [SizeOkB, RectOkB, Bool.and_eq_true, decide_eq_true_eq] at hs hr
    obtain ⟨⟨hsz, hsl⟩, hsr⟩ := hs
    obtain ⟨⟨hrc, hrl⟩, hrr⟩ := hr
    rw [insert_fst]
    by_cases he : q.eqB p = true
    · rw [if_pos he]
      constructor
      · simp [SizeOkB, hsz, hsl, hsr]
      · simp [RectOkB, hrc, hrl, hrr]
    · rw [if_neg he]
      by_cases hless : less p q cx = true
      · rw [if_pos hless]
        obtain ⟨ihs, ihr2⟩ := ihl (!cx) hsl hrl
        constructor
        · simp [Node.update_data, SizeOkB, ihs, hsr]
        · simp [Node.update_data, RectOkB, ihr2, hrr]
      · rw [if_neg hless]
        obtain ⟨ihs, ihr2⟩ := ihr (!cx) hsr hrr
        constructor
        · simp [Node.update_data, SizeOkB, hsl, ihs]
        · simp [Node.update_data, RectOkB, hrl, ihr2]

/-- Bounding/attainment characterization of a `RectOk` node's stored rect: it
is exactly the axis-aligned bounding box of the subtree's points. -/
theorem rectOk_bbox (n : Node) (h : RectOkB n = true) (hne : n ≠ .nil) :
    (∀ q ∈ n.inorder, Bounds n.rectOf q) ∧
      (∃ q ∈ n.inorder, q.x = n.rectOf.xmin) ∧
      (∃ q ∈ n.inorder, q.x = n.rectOf.xmax) ∧
      (∃ q ∈ n.inorder, q.y = n.rectOf.ymin) ∧
      (∃ q ∈ n.inorder, q.y = n.rectOf.ymax) := by
  induction n with
  | nil => exact absurd rfl hne
  | mk p rect s l r ihl ihr =>
    simp only [RectOkB, Bool.and_eq_true, decide_eq_true_eq] at h
    obtain ⟨⟨hrc, hrl⟩, hrr⟩ := h
    -- the bbox grows monotonically through the two update_rect_by steps
    have step :
        ∀ (r0 : Rect) (L0 : List Point) (c : Node), RectOkB c = true →
          ((∀ q ∈ L0, Bounds r0 q) ∧
            (∃ q ∈ L0, q.x = r0.xmin) ∧ (∃ q ∈ L0, q.x = r0.xmax) ∧
            (∃ q ∈ L0, q.y = r0.ymin) ∧ (∃ q ∈ L0, q.y = r0.ymax)) →
          (c = .nil ∨
            ((∀ q ∈ c.inorder, Bounds c.rectOf q) ∧
              (∃ q ∈ c.inorder, q.x = c.rectOf.xmin) ∧
              (∃ q ∈ c.inorder, q.x = c.rectOf.xmax) ∧
              (∃ q ∈ c.inorder, q.y = c.rectOf.ymin) ∧
              (∃ q ∈ c.inorder, q.y = c.rectOf.ymax))) →
          ((∀ q ∈ L0 ++ c.inorder, Bounds (Node.update_rect_by r0 c) q) ∧
            (∃ q ∈ L0 ++ c.inorder, q.x = (Node.update_rect_by r0 c).xmin) ∧
            (∃ q ∈ L0 ++ c.inorder, q.x = (Node.update_rect_by r0 c).xmax) ∧
            (∃ q ∈ L0 ++ c.inorder, q.y = (Node.update_rect_by r0 c).ymin) ∧
            (∃ q ∈ L0 ++ c.inorder, q.y = (Node.update_rect_by r0 c).ymax)) := by
      intro r0 L0 c hcok hbase hc
      cases c with
      | nil =>
        simpa [Node.update_rect_by, Node.inorder] using hbase
      | mk cp crect cs cl cr =>
        obtain ⟨cov0, ⟨a1, ha1, hax1⟩, ⟨a2, ha2, hax2⟩, ⟨a3, ha3, hay1⟩, ⟨a4, ha4, hay2⟩⟩ := hbase
        rcases hc with hc | hc
        · exact absurd hc (by simp)
        obtain ⟨covc, ⟨b1, hb1, hbx1⟩, ⟨b2, hb2, hbx2⟩, ⟨b3, hb3, hby1⟩, ⟨b4, hb4, hby2⟩⟩ := hc
        have hrx : crect = (Node.mk cp crect cs cl cr).rectOf := rfl
        constructor
        · intro q hq
          rcases List.mem_append.mp hq with hq | hq
          · obtain ⟨h1, h2, h3, h4⟩ := cov0 q hq
            refine ⟨?_, ?_, ?_, ?_⟩
            · exact le_trans (min_le_left _ _) h1
            · exact le_trans h2 (le_max_left _ _)
            · exact le_trans (min_le_left _ _) h3
            · exact le_trans h4 (le_max_left _ _)
          · obtain ⟨h1, h2, h3, h4⟩ := covc q hq
            refine ⟨?_, ?_, ?_, ?_⟩
            · exact le_trans (min_le_right _ _) h1
            · exact le_trans h2 (le_max_right _ _)
            · exact le_trans (min_le_right _ _) h3
            · exact le_trans h4 (le_max_right _ _)
        · refine ⟨?_, ?_, ?_, ?_⟩
          · rcases le_total r0.xmin crect.xmin with hcmp | hcmp
            · exact ⟨a1, List.mem_append.mpr (Or.inl ha1), by
                simp only [Node.update_rect_by, Rect.xmin] at hax1 ⊢
                rw [hax1]; exact (min_eq_left hcmp).symm⟩
            · exact ⟨b1, List.mem_append.mpr (Or.inr hb1), by
                simp only [Node.update_rect_by, Rect.xmin, Node.rectOf] at hbx1 ⊢
                rw [hbx1]; exact (min_eq_right hcmp).symm⟩
          · rcases le_total crect.xmax r0.xmax with hcmp | hcmp
            · exact ⟨a2, List.mem_append.mpr (Or.inl ha2), by
                simp only [Node.update_rect_by, Rect.xmax] at hax2 ⊢
                rw [hax2]; exact (max_eq_left hcmp).symm⟩
            · exact ⟨b2, List.mem_append.mpr (Or.inr hb2), by
                simp only [Node.update_rect_by, Rect.xmax, Node.rectOf] at hbx2 ⊢
                rw [hbx2]; exact (max_eq_right hcmp).symm⟩
          · rcases le_total r0.ymin crect.ymin with hcmp | hcmp
            · exact ⟨a3, List.mem_append.mpr (Or.inl ha3), by
                simp only [Node.update_rect_by, Rect.ymin] at hay1 ⊢
                rw [hay1]; exact (min_eq_left hcmp).symm⟩
            · exact ⟨b3, List.mem_append.mpr (Or.inr hb3), by
                simp only [Node.update_rect_by, Rect.ymin, Node.rectOf] at hby1 ⊢
                rw [hby1]; exact (min_eq_right hcmp).symm⟩
          · rcases le_total crect.ymax r0.ymax with hcmp | hcmp
            · exact ⟨a4, List.mem_append.mpr (Or.inl ha4), by
                simp only [Node.update_rect_by, Rect.ymax] at hay2 ⊢
                rw [hay2]; exact (max_eq_left hcmp).symm⟩
            · exact ⟨b4, List.mem_append.mpr (Or.inr hb4), by
                simp only [Node.update_rect_by, Rect.ymax, Node.rectOf] at hby2 ⊢
                rw [hby2]; exact (max_eq_right hcmp).symm⟩
    have hbase :
        (∀ q ∈ [p], Bounds (⟨p, p⟩ : Rect) q) ∧
          (∃ q ∈ [p], q.x = (⟨p, p⟩ : Rect).xmin) ∧
          (∃ q ∈ [p], q.x = (⟨p, p⟩ : Rect).xmax) ∧
          (∃ q ∈ [p], q.y = (⟨p, p⟩ : Rect).ymin) ∧
          (∃ q ∈ [p], q.y = (⟨p, p⟩ : Rect).ymax) := by
      refine ⟨?_, ⟨p, by simp, rfl⟩, ⟨p, by simp, rfl⟩, ⟨p, by simp, rfl⟩, ⟨p, by simp, rfl⟩⟩
      intro q hq
      simp only [List.mem_singleton] at hq
      subst hq
      exact ⟨le_refl _, le_refl _, le_refl _, le_refl _⟩
    have hl2 := step ⟨p, p⟩ [p] l hrl (by exact hbase)
      (by
        cases l with
        | nil => exact Or.inl rfl
        | mk lp lrect ls ll lr => exact Or.inr (ihl hrl (by simp)))
    have hr2 := step (Node.update_rect_by ⟨p, p⟩ l) ([p] ++ l.inorder) r hrr hl2
      (by
        cases r with
        | nil => exact Or.inl rfl
        | mk rp rrect rs rl rr => exact Or.inr (ihr hrr (by simp)))
    have hmem : ∀ q, q ∈ ([p] ++ l.inorder) ++ r.inorder ↔
        q ∈ (Node.mk p rect s l r).inorder := by
      intro q
      simp only [Node.inorder, List.mem_append, List.mem_cons, List.mem_singleton]
      tauto
    have hrect : (Node.mk p rect s l r).rectOf =
        Node.update_rect_by (Node.update_rect_by ⟨p, p⟩ l) r := by
      simp [Node.rectOf, hrc]
    rw [hrect]
    obtain ⟨cov, e1, e2, e3, e4⟩ := hr2
    refine ⟨fun q hq => cov q ((hmem q).mpr hq), ?_, ?_, ?_, ?_⟩
    · obtain ⟨w, hw, hwe⟩ := e1
      exact ⟨w, (hmem w).mp hw, hwe⟩
    · obtain ⟨w, hw, hwe⟩ := e2
      exact ⟨w, (hmem w).mp hw, hwe⟩
    · obtain ⟨w, hw, hwe⟩ := e3
      exact ⟨w, (hmem w).mp hw, hwe⟩
    · obtain ⟨w, hw, hwe⟩ := e4
      exact ⟨w, (hmem w).mp hw, hwe⟩

/-- Two bounding boxes that both cover and attain over lists with the same
members are equal. -/
theorem bbox_unique (r1 r2 : Rect) (L1 L2 : List Point)
    (cov1 : ∀ q ∈ L1, Bounds r1 q)
    (at1 : (∃ q ∈ L1, q.x = r1.xmin) ∧ (∃ q ∈ L1, q.x = r1.xmax) ∧
      (∃ q ∈ L1, q.y = r1.ymin) ∧ (∃ q ∈ L1, q.y = r1.ymax))
    (cov2 : ∀ q ∈ L2, Bounds r2 q)
    (at2 : (∃ q ∈ L2, q.x = r2.xmin) ∧ (∃ q ∈ L2, q.x = r2.xmax) ∧
      (∃ q ∈ L2, q.y = r2.ymin) ∧ (∃ q ∈ L2, q.y = r2.ymax))
    (hmem : ∀ q, q ∈ L1 ↔ q ∈ L2) : r1 = r2 := by
  obtain ⟨⟨w1, hw1, he1⟩, ⟨w2, hw2, he2⟩, ⟨w3, hw3, he3⟩, ⟨w4, hw4, he4⟩⟩ := at1
  obtain ⟨⟨v1, hv1, hf1⟩, ⟨v2, hv2, hf2⟩, ⟨v3, hv3, hf3⟩, ⟨v4, hv4, hf4⟩⟩ := at2
  have hxmin : r1.xmin = r2.xmin := by
    have h1 : r2.xmin ≤ r1.xmin := by
      rw [← he1]; exact (cov2 w1 ((hmem w1).mp hw1)).1
    have h2 : r1.xmin ≤ r2.xmin := by
      rw [← hf1]; exact (cov1 v1 ((hmem v1).mpr hv1)).1
    exact le_antisymm h2 h1
  have hxmax : r1.xmax = r2.xmax := by
    have h1 : r1.xmax ≤ r2.xmax := by
      rw [← he2]; exact (cov2 w2 ((hmem w2).mp hw2)).2.1
    have h2 : r2.xmax ≤ r1.xmax := by
      rw [← hf2]; exact (cov1 v2 ((hmem v2).mpr hv2)).2.1
    exact le_antisymm h1 h2
  have hymin : r1.ymin = r2.ymin := by
    have h1 : r2.ymin ≤ r1.ymin := by
      rw [← he3]; exact (cov2 w3 ((hmem w3).mp hw3)).2.2.1
    have h2 : r1.ymin ≤ r2.ymin := by
      rw [← hf3]; exact (cov1 v3 ((hmem v3).mpr hv3)).2.2.1
    exact le_antisymm h2 h1
  have hymax : r1.ymax = r2.ymax := by
    have h1 : r1.ymax ≤ r2.ymax := by
      rw [← he4]; exact (cov2 w4 ((hmem w4).mp hw4)).2.2.2
    have h2 : r2.ymax ≤ r1.ymax := by
      rw [← hf4]; exact (cov1 v4 ((hmem v4).mpr hv4)).2.2.2
    exact le_antisymm h1 h2
  rcases r1 with ⟨⟨a1, b1⟩, ⟨c1, d1⟩⟩
  rcases r2 with ⟨⟨a2, b2⟩, ⟨c2, d2⟩⟩
  simp only [Rect.xmin, Rect.xmax, Rect.ymin, Rect.ymax] at hxmin hxmax hymin hymax
  simp_all

/-- A `RectOk` node's stored rect is geometrically well-formed. -/
theorem rectOk_wf (n : Node) (h : RectOkB n = true) (hne : n ≠ .nil) :
    n.rectOf.wfB = true := by
  obtain ⟨cov, ⟨w1, hw1, he1⟩, ⟨w2, hw2, he2⟩, ⟨w3, hw3, he3⟩, ⟨w4, hw4, he4⟩⟩ :=
    rectOk_bbox n h hne
  rw [Rect.wfB, decide_eq_true_eq]
  constructor
  · rw [← he1]
    exact (cov w1 hw1).2.1
  · rw [← he3]
    exact (cov w3 hw3).2.2.2

/-- Rebuilding any subtree keeps a null tree null. -/
theorem rebuildAt_nil (path : List Bool) (cx : Bool) :
    rebuildAt .nil path cx = .nil := by
  cases path with
  | nil => simp [rebuildAt, rebuildNode, Node.inorder, build_tree, buildGo]
  | cons d rest => cases d <;> rfl

theorem rebuildAt_ne_nil (t : Node) (path : List Bool) (cx : Bool) (hne : t ≠ .nil) :
    rebuildAt t path cx ≠ .nil := by
  cases path with
  | nil =>
    simp only [rebuildAt, rebuildNode]
    exact build_tree_ne_nil _ _ (fun h => hne ((inorder_eq_nil_iff t).mp h))
  | cons d rest =>
    cases t with
    | nil => exact absurd rfl hne
    | mk q rect sz l r => cases d <;> simp [rebuildAt]

/-- Rebuilding a subtree preserves its stored root size (under `SizeOk`). -/
theorem rebuildAt_get_size (t : Node) (path : List Bool) (cx : Bool)
    (hs : SizeOkB t = true) :
    (rebuildAt t path cx).get_size = t.get_size := by
  cases path with
  | nil =>
    simp only [rebuildAt, rebuildNode]
    rw [build_tree_get_size, ← count_eq_length_inorder, sizeOk_get_size_eq_count t hs]
  | cons d rest =>
    cases t with
    | nil => simp [rebuildAt_nil]
    | mk q rect sz l r => cases d <;> rfl

/-- Rebuilding a subtree preserves its stored root rect (under the
invariants). -/
theorem rebuildAt_rectOf (t : Node) (path : List Bool) (cx : Bool)
    (hr : RectOkB t = true) (hne : t ≠ .nil) :
    (rebuildAt t path cx).rectOf = t.rectOf := by
  cases path with
  | nil =>
    simp only [rebuildAt, rebuildNode]
    have hbne : build_tree t.inorder cx ≠ .nil :=
      build_tree_ne_nil _ _ (fun h => hne ((inorder_eq_nil_iff t).mp h))
    obtain ⟨cov1, at1⟩ := rectOk_bbox _ (build_tree_inv t.inorder cx).2 hbne
    obtain ⟨cov2, at2⟩ := rectOk_bbox t hr hne
    refine bbox_unique _ _ _ _ cov1 at1 cov2 at2 ?_
    intro q
    exact (build_tree_inorder_perm t.inorder cx).mem_iff
  | cons d rest =>
    cases t with
    | nil => exact absurd rfl hne
    | mk q rect sz l r => cases d <;> rfl

theorem update_rect_by_congr (x : Rect) (c1 c2 : Node)
    (hn : c1 = .nil ↔ c2 = .nil) (hr : c1.rectOf = c2.rectOf) :
    Node.update_rect_by x c1 = Node.update_rect_by x c2 := by
  cases c1 with
  | nil =>
    have : c2 = .nil := hn.mp rfl
    rw [this]
  | mk p1 r1 s1 l1 rr1 =>
    cases c2 with
    | nil => exact absurd (hn.mpr rfl) (by simp)
    | mk p2 r2 s2 l2 rr2 =>
      simp only [Node.rectOf] at hr
      simp [Node.update_rect_by, hr]

/-- Replacing a subtree by its rebuilt form preserves both structural
invariants: the rebuilt subtree has the same size and bounding box, so every
ancestor's cached data stays correct. -/
theorem rebuildAt_inv (t : Node) (path : List Bool) (cx : Bool)
    (hs : SizeOkB t = true) (hr : RectOkB t = true) :
    SizeOkB (rebuildAt t path cx) = true ∧ RectOkB (rebuildAt t path cx) = true := by
  induction path generalizing t cx with
  | nil =>
    simp only [rebuildAt, rebuildNode]
    exact build_tree_inv t.inorder cx
  | cons d rest ih =>
    cases t with
    | nil => rw [rebuildAt_nil]; exact ⟨rfl, rfl⟩
    | mk q rect sz l r =>
      simp only [SizeOkB, RectOkB, Bool.and_eq_true, decide_eq_true_eq] at hs hr
      obtain ⟨⟨hsz, hsl⟩, hsr⟩ := hs
      obtain ⟨⟨hrc, hrl⟩, hrr⟩ := hr
      cases d with
      | true =>
        obtain ⟨ihls, ihlr⟩ := ih l cx hsl hrl
        have hgs := rebuildAt_get_size l rest cx hsl
        constructor
        · simp only [rebuildAt, SizeOkB, Bool.and_eq_true, decide_eq_true_eq]
          exact ⟨⟨by rw [hgs]; exact hsz, ihls⟩, hsr⟩
        · simp only [rebuildAt, RectOkB, Bool.and_eq_true, decide_eq_true_eq]
          refine ⟨⟨?_, ihlr⟩, hrr⟩
          rw [hrc]
          congr 1
          by_cases hlnil : l = .nil
          · rw [hlnil, rebuildAt_nil]
          · exact (update_rect_by_congr _ _ _
              (by
                constructor
                · intro h; exact absurd h (rebuildAt_ne_nil l rest cx hlnil)
                · intro h; exact absurd h hlnil)
              (rebuildAt_rectOf l rest cx hrl hlnil)).symm ▸ rfl
      | false =>
        obtain ⟨ihrs, ihrr⟩ := ih r cx hsr hrr
        have hgs := rebuildAt_get_size r rest cx hsr
        constructor
        · simp only [rebuildAt, SizeOkB, Bool.and_eq_true, decide_eq_true_eq]
          exact ⟨⟨by rw [hgs]; exact hsz, hsl⟩, ihrs⟩
        · simp only [rebuildAt, RectOkB, Bool.and_eq_true, decide_eq_true_eq]
          refine ⟨⟨?_, hrl⟩, ihrr⟩
          rw [hrc]
          by_cases hrnil : r = .nil
          · rw [hrnil, rebuildAt_nil]
          · exact update_rect_by_congr _ _ _
              (by
                constructor
                · intro h; exact absurd h hrnil
                · intro h; exact absurd h (rebuildAt_ne_nil r rest cx hrnil))
              (rebuildAt_rectOf r rest cx hrr hrnil).symm

/-- `put` preserves the size and rect invariants. -/
theorem put_inv (t : Node) (p : Point)
    (hs : SizeOkB t = true) (hr : RectOkB t = true) :
    SizeOkB (put t p) = true ∧ RectOkB (put t p) = true := by
  rw [put]
  rcases hbr : insert t p true with ⟨n, br⟩
  have hn : n = (insert t p true).1 := by rw [hbr]
  obtain ⟨h1, h2⟩ := insert_inv t p true hs hr
  rw [← hn] at h1 h2
  cases br with
  | none => exact ⟨h1, h2⟩
  | some pc =>
    rcases pc with ⟨path, cx⟩
    exact rebuildAt_inv n path cx h1 h2

/-!  ### Range query  -/

theorem rangeGo_skip (q : Point) (nrect : Rect) (s : ℕ) (l r : Node)
    (rect : Rect) (acc : List Point) (h : nrect.intersectsB rect = false) :
    rangeGo (.mk q nrect s l r) rect acc = acc := by
  simp [rangeGo, h]

/-- Unfolding of `rangeGo` at a node: the child-side intersection pre-checks
coincide with the checks the recursive calls perform at entry, so they can be
dropped. -/
theorem rangeGo_node (q : Point) (nrect : Rect) (s : ℕ) (l r : Node)
    (rect : Rect) (acc : List Point) :
    rangeGo (.mk q nrect s l r) rect acc =
      if nrect.intersectsB rect then
        rangeGo r rect
          (rangeGo l rect (if rect.containsB q then acc ++ [q] else acc))
      else acc := by
  by_cases hint : nrect.intersectsB rect = true
  · rw [if_pos hint]
    cases l with
    | nil =>
      cases r with
      | nil => simp [rangeGo, hint]
      | mk rp rrect rs rl rr =>
        by_cases hr2 : rrect.intersectsB rect = true
        · simp [rangeGo, hint, hr2]
        · rw [rangeGo_skip rp rrect rs rl rr rect _
            (by simpa using hr2)]
          simp [rangeGo, hint, hr2]
    | mk lp lrect ls ll lr =>
      by_cases hl2 : lrect.intersectsB rect = true
      · cases r with
        | nil => simp [rangeGo, hint, hl2]
        | mk rp rrect rs rl rr =>
          by_cases hr2 : rrect.intersectsB rect = true
          · simp [rangeGo, hint, hl2, hr2]
          · rw [rangeGo_skip rp rrect rs rl rr rect _ (by simpa using hr2)]
            simp [rangeGo, hint, hl2, hr2]
      · rw [rangeGo_skip lp lrect ls ll lr rect _ (by simpa using hl2)]
        cases r with
        | nil => simp [rangeGo, hint, hl2]
        | mk rp rrect rs rl rr =>
          by_cases hr2 : rrect.intersectsB rect = true
          · simp [rangeGo, hint, hl2, hr2]
          · rw [rangeGo_skip rp rrect rs rl rr rect _ (by simpa using hr2)]
            simp [rangeGo, hint, hl2, hr2]
  · rw [if_neg hint]
    exact rangeGo_skip q nrect s l r rect acc (by simpa using hint)

theorem rangeGo_append (t : Node) (rect : Rect) (acc : List Point) :
    rangeGo t rect acc = acc ++ rangeGo t rect [] := by
  induction t generalizing acc with
  | nil => simp [rangeGo]
  | mk q nrect s l r ihl ihr =>
    rw [rangeGo_node, rangeGo_node]
    by_cases hint : nrect.intersectsB rect = true
    · rw [if_pos hint, if_pos hint]
      by_cases hc : rect.containsB q = true
      · rw [if_pos hc, if_pos hc]
        simp only [List.nil_append]
        rw [ihl (acc ++ [q]), ihl [q], ihr (acc ++ [q] ++ rangeGo l rect []),
          ihr ([q] ++ rangeGo l rect [])]
        simp [List.append_assoc]
      · rw [if_neg hc, if_neg hc]
        rw [ihl acc, ihr (acc ++ rangeGo l rect []), ihr (rangeGo l rect [])]
        simp [List.append_assoc]
    · rw [if_neg hint, if_neg hint]
      simp

/-- The match list produced at a node, split into the three sources. -/
theorem rangeList_node (q : Point) (nrect : Rect) (s : ℕ) (l r : Node) (rect : Rect) :
    rangeList (.mk q nrect s l r) rect =
      if nrect.intersectsB rect then
        (if rect.containsB q then [q] else []) ++ rangeList l rect ++ rangeList r rect
      else [] := by
  rw [rangeList, rangeGo_node]
  by_cases hint : nrect.intersectsB rect = true
  · rw [if_pos hint, if_pos hint]
    by_cases hc : rect.containsB q = true
    · rw [if_pos hc, if_pos hc]
      simp only [List.nil_append]
      rw [rangeGo_append l rect [q], rangeGo_append r rect _]
      simp [rangeList, List.append_assoc]
    · rw [if_neg hc, if_neg hc]
      rw [rangeGo_append r rect _]
      simp [rangeList]
  · rw [if_neg hint, if_neg hint]

/-- Soundness of `range`: every reported point is stored and passes the
epsilon-tolerant containment test. -/
theorem range_sound (t : Node) (rect : Rect) :
    ∀ x ∈ rangeList t rect, x ∈ t.inorder ∧ rect.containsB x = true := by
  induction t with
  | nil => simp [rangeList, rangeGo]
  | mk q nrect s l r ihl ihr =>
    intro x hx
    rw [rangeList_node] at hx
    by_cases hint : nrect.intersectsB rect = true
    · rw [if_pos hint] at hx
      simp only [List.append_assoc, List.mem_append] at hx
      rcases hx with hx | hx | hx
      · by_cases hc : rect.containsB q = true
        · rw [if_pos hc] at hx
          simp only [List.mem_singleton] at hx
          subst hx
          exact ⟨by simp [Node.inorder], hc⟩
        · rw [if_neg hc] at hx
          simp at hx
      · obtain ⟨h1, h2⟩ := ihl x hx
        exact ⟨by simp [Node.inorder, h1], h2⟩
      · obtain ⟨h1, h2⟩ := ihr x hx
        exact ⟨by simp [Node.inorder, h2, h1], h2⟩
    · rw [if_neg hint] at hx
      simp at hx

theorem bounds_intersect (r1 r2 : Rect) (x : Point)
    (h1 : Bounds r1 x) (h2 : Bounds r2 x) : r1.intersectsB r2 = true := by
  obtain ⟨a1, a2, a3, a4⟩ := h1
  obtain ⟨b1, b2, b3, b4⟩ := h2
  simp only [Rect.intersectsB, Bool.not_eq_eq_eq_not, Bool.not_true, Bool.or_eq_false_iff,
    decide_eq_false_iff_not, not_lt]
  refine ⟨⟨⟨?_, ?_⟩, ?_⟩, ?_⟩ <;> linarith

theorem bounds_contains (rect : Rect) (x : Point) (h : Bounds rect x) :
    rect.containsB x = true := by
  obtain ⟨a1, a2, a3, a4⟩ := h
  have he := EPS_pos
  simp only [Rect.containsB, Point.in_quad, Bool.and_eq_true, decide_eq_true_eq]
  constructor
  · constructor <;> [skip; skip] <;>
      simp only [Rect.xmin, Rect.ymin] at a1 a3 <;> linarith
  · constructor <;>
      simp only [Rect.xmax, Rect.ymax] at a2 a4 <;> linarith

/-- Completeness of `range` for points exactly inside the query box: the
pruning by exact node bounding boxes never discards them. -/
theorem range_complete (t : Node) (rect : Rect) (hr : RectOkB t = true) :
    ∀ x ∈ t.inorder, Bounds rect x → x ∈ rangeList t rect := by
  induction t with
  | nil => simp [Node.inorder]
  | mk q nrect s l r ihl ihr =>
    intro x hx hb
    simp only [RectOkB, Bool.and_eq_true, decide_eq_true_eq] at hr
    obtain ⟨⟨hrc, hrl⟩, hrr⟩ := hr
    have hcov := (rectOk_bbox (.mk q nrect s l r)
      (by simp [RectOkB, hrc, hrl, hrr]) (by simp)).1
    have hbn : Bounds (Node.mk q nrect s l r).rectOf x := hcov x hx
    have hint : nrect.intersectsB rect = true := by
      have : (Node.mk q nrect s l r).rectOf = nrect := rfl
      rw [this] at hbn
      exact bounds_intersect nrect rect x hbn hb
    rw [rangeList_node, if_pos hint]
    simp only [Node.inorder, List.mem_append, List.mem_cons] at hx
    simp only [List.append_assoc, List.mem_append]
    rcases hx with hx | hx | hx
    · exact Or.inr (Or.inl (ihl hrl x hx hb))
    · subst hx
      rw [if_pos (bounds_contains rect x hb)]
      exact Or.inl (by simp)
    · exact Or.inr (Or.inr (ihr hrr x hx hb))

/-!  ### Size bookkeeping of put  -/

theorem put_count (t : Node) (p : Point) :
    (put t p).count = t.count + (if t.containsB p then 0 else 1) := by
  have h := (put_inorder_perm t p).length_eq
  rw [count_eq_length_inorder, count_eq_length_inorder, h]
  by_cases hc : t.containsB p = true
  · rw [if_pos hc, if_pos hc]
    simp
  · rw [if_neg hc, if_neg hc]
    simp [Nat.add_comm]

theorem put_get_size (t : Node) (p : Point)
    (hs : SizeOkB t = true) (hr : RectOkB t = true) :
    (put t p).get_size = t.get_size + (if t.containsB p then 0 else 1) := by
  rw [sizeOk_get_size_eq_count _ (put_inv t p hs hr).1,
    sizeOk_get_size_eq_count t hs, put_count]

/-- The size/rect invariants hold for every set reachable by a sequence of
`put` calls from a given invariant-satisfying set (in particular from the
empty set). -/
theorem putList_inv (ps : List Point) (t : Node)
    (hs : SizeOkB t = true) (hr : RectOkB t = true) :
    SizeOkB (putList t ps) = true ∧ RectOkB (putList t ps) = true := by
  induction ps generalizing t with
  | nil => exact ⟨hs, hr⟩
  | cons p rest ih =>
    obtain ⟨h1, h2⟩ := put_inv t p hs hr
    exact ih (put t p) h1 h2

/-!  ### Claim theorems: C1, C2, C4  -/

/-- C1 (amended): for every kdtree PointSet satisfying the size/rect
invariants (which every sequence of puts and every bulk build establishes) and
every query rect, `range` returns a subset of the stored points each passing
the epsilon-tolerant `Rect::contains` test, and it returns every stored point
lying within the exact closed bounds of the query rect.  (The original claim —
that every stored point passing the epsilon-tolerant test is returned — is
refuted by `C1_counterexample`.) -/
theorem C1_range_exact (t : Node) (rect : Rect) (hr : RectOkB t = true) :
    (∀ x ∈ rangeList t rect, x ∈ t.inorder ∧ rect.containsB x = true) ∧
      (∀ x ∈ t.inorder, rect.memB x = true → x ∈ rangeList t rect) :=
  ⟨range_sound t rect,
   fun x hx hm => range_complete t rect hr x hx ((memB_iff rect x).mp hm)⟩

/-- Witness for C1: the amended statement applied to the five-point example
set and the query rect ((0,0),(1,1)). -/
theorem C1_range_exact_witness :
    RectOkB (putList .nil [⟨0, 0⟩, ⟨1, 1⟩, ⟨2, 2⟩, ⟨0, 2⟩, ⟨2, 0⟩]) = true ∧
      ((∀ x ∈ rangeList (putList .nil [⟨0, 0⟩, ⟨1, 1⟩, ⟨2, 2⟩, ⟨0, 2⟩, ⟨2, 0⟩])
            ⟨⟨0, 0⟩, ⟨1, 1⟩⟩,
          x ∈ (putList .nil [⟨0, 0⟩, ⟨1, 1⟩, ⟨2, 2⟩, ⟨0, 2⟩, ⟨2, 0⟩]).inorder ∧
            Rect.containsB ⟨⟨0, 0⟩, ⟨1, 1⟩⟩ x = true) ∧
        (∀ x ∈ (putList .nil [⟨0, 0⟩, ⟨1, 1⟩, ⟨2, 2⟩, ⟨0, 2⟩, ⟨2, 0⟩]).inorder,
          Rect.memB ⟨⟨0, 0⟩, ⟨1, 1⟩⟩ x = true →
            x ∈ rangeList (putList .nil [⟨0, 0⟩, ⟨1, 1⟩, ⟨2, 2⟩, ⟨0, 2⟩, ⟨2, 0⟩])
              ⟨⟨0, 0⟩, ⟨1, 1⟩⟩)) :=
  ⟨by decide, C1_range_exact _ _ (by decide)⟩

/-- Counterexample to C1 as stated: the set {(1 − EPS/2, 1/2)} (built by a
single put) and the well-formed query rect ((1,0),(2,1)).  The stored point
passes the epsilon-tolerant containment test, yet `range` returns nothing: the
tree's exact bounding box ((1−EPS/2,1/2),(1−EPS/2,1/2)) fails the exact
`intersects` test against the query, so the root is pruned. -/
theorem C1_counterexample :
    Rect.wfB ⟨⟨1, 0⟩, ⟨2, 1⟩⟩ = true ∧
      Rect.containsB ⟨⟨1, 0⟩, ⟨2, 1⟩⟩ ⟨1 - EPS / 2, 1 / 2⟩ = true ∧
      (⟨1 - EPS / 2, 1 / 2⟩ : Point) ∈ (put .nil ⟨1 - EPS / 2, 1 / 2⟩).inorder ∧
      (⟨1 - EPS / 2, 1 / 2⟩ : Point) ∉
        rangeList (put .nil ⟨1 - EPS / 2, 1 / 2⟩) ⟨⟨1, 0⟩, ⟨2, 1⟩⟩ := by
  decide

/-- C2 (amended): immediately after every `put`, every node satisfies the size
invariant (`size = 1 + size(left) + size(right)`) and the rect invariant
(`rect` equals the axis-aligned union of the node's point and its children's
rects) — that is exactly `SizeOkB` and `RectOkB`.  The weight-balance bound
(`size(child) ≤ 0.65 · size(node)` for every node) does NOT hold after every
put: `C2_counterexample` exhibits a put after which the root itself violates
it, because `build_tree`'s leftmost-median tie shift produces arbitrarily
lopsided subtrees when points tie on the splitting axis. -/
theorem C2_put_invariants (t : Node) (p : Point)
    (hs : SizeOkB t = true) (hr : RectOkB t = true) :
    SizeOkB (put t p) = true ∧ RectOkB (put t p) = true :=
  put_inv t p hs hr

/-- Witness for C2: the amended statement applied to the two-point tree
(0,0),(0,1) and the put of (0,2). -/
theorem C2_put_invariants_witness :
    SizeOkB (putList .nil [⟨0, 0⟩, ⟨0, 1⟩]) = true ∧
      RectOkB (putList .nil [⟨0, 0⟩, ⟨0, 1⟩]) = true ∧
      (SizeOkB (put (putList .nil [⟨0, 0⟩, ⟨0, 1⟩]) ⟨0, 2⟩) = true ∧
        RectOkB (put (putList .nil [⟨0, 0⟩, ⟨0, 1⟩]) ⟨0, 2⟩) = true) :=
  ⟨by decide, by decide, C2_put_invariants _ _ (by decide) (by decide)⟩

/-- Counterexample to C2 as stated: after putting (0,0), (0,1), (0,2) into an
empty set, the last `put` returns with the root violating the weight-balance
bound: the root has size 3 and a right child of size 2 > 0.65·3.  (The put
does trigger a rebuild of the whole tree, but `build_tree` shifts the median
over the run of x-ties down to the first element, recreating the
imbalance.) -/
theorem C2_counterexample :
    Node.balancedB (put (putList .nil [⟨0, 0⟩, ⟨0, 1⟩]) ⟨0, 2⟩) = false ∧
      AllBalancedB (put (putList .nil [⟨0, 0⟩, ⟨0, 1⟩]) ⟨0, 2⟩) = false := by
  decide

/-- C4 (amended): `size()` counts the puts whose argument was not already
contained (in the sense of the `contains` descent) at call time: a put of a
contained point leaves the stored point multiset unchanged (even when it
triggers an internal rebuild), and any other put increases `size()` by exactly
one.  The original claim — counting distinct points under epsilon-equality,
with every epsilon-duplicate put a no-op — is refuted by
`C4_counterexample`. -/
theorem C4_size_after_put (t : Node) (p : Point)
    (hs : SizeOkB t = true) (hr : RectOkB t = true) :
    (put t p).get_size = t.get_size + (if t.containsB p then 0 else 1) ∧
      (t.containsB p = true → (put t p).inorder.Perm t.inorder) := by
  refine ⟨put_get_size t p hs hr, fun hc => ?_⟩
  have h := put_inorder_perm t p
  rw [if_pos hc] at h
  exact h

/-- Witness for C4: putting the already-stored point (0,0) into the
two-point set {(0,0),(1,1)} keeps the size and the stored points. -/
theorem C4_size_after_put_witness :
    SizeOkB (putList .nil [⟨0, 0⟩, ⟨1, 1⟩]) = true ∧
      RectOkB (putList .nil [⟨0, 0⟩, ⟨1, 1⟩]) = true ∧
      ((put (putList .nil [⟨0, 0⟩, ⟨1, 1⟩]) ⟨0, 0⟩).get_size =
          (putList .nil [⟨0, 0⟩, ⟨1, 1⟩]).get_size +
            (if (putList .nil [⟨0, 0⟩, ⟨1, 1⟩]).containsB ⟨0, 0⟩ then 0 else 1) ∧
        ((putList .nil [⟨0, 0⟩, ⟨1, 1⟩]).containsB ⟨0, 0⟩ = true →
          (put (putList .nil [⟨0, 0⟩, ⟨1, 1⟩]) ⟨0, 0⟩).inorder.Perm
            (putList .nil [⟨0, 0⟩, ⟨1, 1⟩]).inorder)) :=
  ⟨by decide, by decide, C4_size_after_put _ _ (by decide) (by decide)⟩

/-- Counterexample to C4 as stated: put (0,0), then (EPS/4, 10), then
(−EPS/4, 10).  The last two points are epsilon-equal — only two distinct
points were inserted under epsilon-equality — yet the third put is not a
no-op and `size()` ends at 3: the descent for (−EPS/4,10) branches left at the
root (−EPS/4 < 0) while (EPS/4,10) went right, so the epsilon-equal stored
point is never compared against. -/
theorem C4_counterexample :
    Point.eqB ⟨EPS / 4, 10⟩ ⟨-EPS / 4, 10⟩ = true ∧
      (putList .nil [⟨0, 0⟩, ⟨EPS / 4, 10⟩, ⟨-EPS / 4, 10⟩]).get_size = 3 ∧
      (putList .nil [⟨0, 0⟩, ⟨EPS / 4, 10⟩]).containsB ⟨-EPS / 4, 10⟩ = false := by
  decide

/-!  ### The threaded in-order traversal  -/

/-- Points visited by the traversal strictly after the node addressed by the
path: the focus's right subtree, then, for every ancestor reached from its
left child, that ancestor and its right subtree. -/
def afterF : Node → List Bool → List Point
  | t, [] =>
    (match t with
     | .nil => []
     | .mk _ _ _ _ r => r.inorder)
  | .nil, _ :: _ => []
  | .mk q _ _ l r, true :: rest => afterF l rest ++ q :: r.inorder
  | .mk _ _ _ _ r, false :: rest => afterF r rest

/-- The leftmost node's point followed by the rest of the traversal is the
whole in-order sequence. -/
theorem leftmost_afterF (t : Node) (hne : t ≠ .nil) :
    (nodeAt t (leftmostDirs t)).pointOf :: afterF t (leftmostDirs t) = t.inorder := by
  induction t with
  | nil => exact absurd rfl hne
  | mk q rect s l r ihl ihr =>
    cases l with
    | nil =>
      simp [leftmostDirs, nodeAt, Node.pointOf, afterF, Node.inorder]
    | mk lp lrect ls ll lr =>
      have hstep : leftmostDirs (.mk q rect s (.mk lp lrect ls ll lr) r) =
          true :: leftmostDirs (.mk lp lrect ls ll lr) := rfl
      rw [hstep]
      have h1 : nodeAt (.mk q rect s (.mk lp lrect ls ll lr) r)
          (true :: leftmostDirs (.mk lp lrect ls ll lr)) =
          nodeAt (.mk lp lrect ls ll lr) (leftmostDirs (.mk lp lrect ls ll lr)) := rfl
      have h2 : afterF (.mk q rect s (.mk lp lrect ls ll lr) r)
          (true :: leftmostDirs (.mk lp lrect ls ll lr)) =
          afterF (.mk lp lrect ls ll lr) (leftmostDirs (.mk lp lrect ls ll lr)) ++
            q :: r.inorder := rfl
      rw [h1, h2]
      have ih := ihl (by simp)
      calc (nodeAt (.mk lp lrect ls ll lr) (leftmostDirs (.mk lp lrect ls ll lr))).pointOf ::
            (afterF (.mk lp lrect ls ll lr) (leftmostDirs (.mk lp lrect ls ll lr)) ++
              q :: r.inorder)
          = ((nodeAt (.mk lp lrect ls ll lr)
                (leftmostDirs (.mk lp lrect ls ll lr))).pointOf ::
              afterF (.mk lp lrect ls ll lr) (leftmostDirs (.mk lp lrect ls ll lr))) ++
              q :: r.inorder := rfl
        _ = (Node.mk lp lrect ls ll lr).inorder ++ q :: r.inorder := by rw [ih]
        _ = (Node.mk q rect s (.mk lp lrect ls ll lr) r).inorder := rfl

/-- A cursor with no in-order successor has nothing left to visit. -/
theorem nextPath_none_afterF (p : List Bool) :
    ∀ (t : Node), nextPath t p = none → afterF t p = [] := by
  induction p with
  | nil =>
    intro t hn
    cases t with
    | nil => rfl
    | mk q rect s l r =>
      cases r with
      | nil => rfl
      | mk rp rrect rs rl rr => exact absurd hn (by simp [nextPath])
  | cons d rest ih =>
    intro t hn
    cases t with
    | nil => rfl
    | mk q rect s l r =>
      cases d with
      | true =>
        exfalso
        cases hnl : nextPath l rest <;> simp [nextPath, hnl] at hn
      | false =>
        cases hnr : nextPath r rest with
        | some p2 => exact absurd hn (by simp [nextPath, hnr])
        | none =>
          show afterF r rest = []
          exact ih r hnr

/-- One step of the cursor: the in-order successor's point followed by the
successor's tail equals the current tail. -/
theorem nextPath_some_afterF (p : List Bool) :
    ∀ (t : Node) (p2 : List Bool), nextPath t p = some p2 →
      (nodeAt t p2).pointOf :: afterF t p2 = afterF t p := by
  induction p with
  | nil =>
    intro t p2 hn
    cases t with
    | nil => exact absurd hn (by simp [nextPath])
    | mk q rect s l r =>
      cases r with
      | nil => exact absurd hn (by simp [nextPath])
      | mk rp rrect rs rl rr =>
        have he : nextPath (.mk q rect s l (.mk rp rrect rs rl rr)) [] =
            some (false :: leftmostDirs (.mk rp rrect rs rl rr)) := rfl
        rw [he] at hn
        injection hn with hp2
        subst hp2
        show (nodeAt (.mk rp rrect rs rl rr)
            (leftmostDirs (.mk rp rrect rs rl rr))).pointOf ::
            afterF (.mk rp rrect rs rl rr) (leftmostDirs (.mk rp rrect rs rl rr)) =
            (Node.mk rp rrect rs rl rr).inorder
        exact leftmost_afterF (.mk rp rrect rs rl rr) (by simp)
  | cons d rest ih =>
    intro t p2 hn
    cases t with
    | nil => exact absurd hn (by simp [nextPath])
    | mk q rect s l r =>
      cases d with
      | true =>
        cases hnl : nextPath l rest with
        | some q2 =>
          have he : nextPath (.mk q rect s l r) (true :: rest) = some (true :: q2) := by
            simp [nextPath, hnl]
          rw [he] at hn
          injection hn with hp2
          subst hp2
          show (nodeAt l q2).pointOf :: (afterF l q2 ++ q :: r.inorder) =
            afterF l rest ++ q :: r.inorder
          rw [← ih l q2 hnl]
          rfl
        | none =>
          have he : nextPath (.mk q rect s l r) (true :: rest) = some [] := by
            simp [nextPath, hnl]
          rw [he] at hn
          injection hn with hp2
          subst hp2
          show q :: r.inorder = afterF l rest ++ q :: r.inorder
          rw [nextPath_none_afterF rest l hnl]
          rfl
      | false =>
        cases hnr : nextPath r rest with
        | some q2 =>
          have he : nextPath (.mk q rect s l r) (false :: rest) = some (false :: q2) := by
            simp [nextPath, hnr]
          rw [he] at hn
          injection hn with hp2
          subst hp2
          show (nodeAt r q2).pointOf :: afterF r q2 = afterF r rest
          exact ih r q2 hnr
        | none =>
          exfalso
          have he : nextPath (.mk q rect s l r) (false :: rest) = none := by
            simp [nextPath, hnr]
          rw [he] at hn
          exact Option.noConfusion hn

/-- With enough fuel, iterating the cursor from a path produces the focus's
point followed by the whole remaining traversal. -/
theorem iterFrom_eq (fuel : ℕ) :
    ∀ (t : Node) (p : List Bool), (afterF t p).length < fuel →
      iterFrom t (some p) fuel = (nodeAt t p).pointOf :: afterF t p := by
  induction fuel with
  | zero => intro t p h; omega
  | succ k ih =>
    intro t p h
    rw [iterFrom]
    cases hn : nextPath t p with
    | none =>
      rw [nextPath_none_afterF p t hn]
      cases k with
      | zero => rfl
      | succ m => rfl
    | some p2 =>
      have hstep := nextPath_some_afterF p t p2 hn
      have hlen : (afterF t p2).length < k := by
        have := congrArg List.length hstep
        simp only [List.length_cons] at this
        omega
      rw [ih t p2 hlen, hstep]

/-- The begin-to-end cursor traversal enumerates exactly the in-order point
sequence. -/
theorem iterList_eq_inorder (t : Node) : iterList t = t.inorder := by
  cases ht : t with
  | nil => rfl
  | mk q rect s l r =>
    rw [iterList, beginPath]
    have hne : (Node.mk q rect s l r) ≠ .nil := by simp
    have hA := leftmost_afterF (.mk q rect s l r) hne
    have hcount : (Node.mk q rect s l r).count =
        (afterF (.mk q rect s l r) (leftmostDirs (.mk q rect s l r))).length + 1 := by
      rw [count_eq_length_inorder, ← hA]
      simp
    rw [iterFrom_eq _ _ _ (by omega), hA]

/-!  ### Loading constructor and round trip (C7), frame of put (C10)  -/

/-- The equivalence induced by the `std::set` ordering collapses exactly the
pairs with equal coordinates: `operator<` compares x with exact `<` first, so
two points are set-equivalent iff both coordinates are exactly equal. -/
theorem equivB_iff (a b : Point) : a.equivB b = true ↔ a = b := by
  rcases a with ⟨ax, ay⟩
  rcases b with ⟨bx, by2⟩
  simp only [Point.equivB, Point.ltB, Bool.and_eq_true, Bool.not_eq_eq_eq_not, Bool.not_true,
    decide_eq_false_iff_not, not_or, not_and, not_lt, Point.mk.injEq]
  constructor
  · rintro ⟨⟨h1, h2⟩, h3, h4⟩
    have hx : ax = bx := le_antisymm h3 h1
    subst hx
    refine ⟨rfl, ?_⟩
    have he : |ax - ax| < EPS := by simpa using EPS_pos
    exact le_antisymm (h4 (by simpa using EPS_pos)) (h2 (by simpa using EPS_pos))
  · rintro ⟨hx, hy⟩
    subst hx; subst hy
    exact ⟨⟨le_refl _, fun _ => le_refl _⟩, le_refl _, fun _ => le_refl _⟩

theorem setInsert_mem (acc : List Point) (p q : Point) :
    q ∈ setInsert acc p ↔ q ∈ acc ∨ q = p := by
  rw [setInsert]
  by_cases h : (acc.any fun e => e.equivB p) = true
  · rw [if_pos h]
    obtain ⟨e, he, heq⟩ := List.any_eq_true.mp h
    have : e = p := (equivB_iff e p).mp heq
    subst this
    constructor
    · exact Or.inl
    · rintro (hq | hq)
      · exact hq
      · subst hq; exact he
  · rw [if_neg h]
    simp

theorem foldl_setInsert_mem (ps : List Point) :
    ∀ (acc : List Point) (q : Point), q ∈ ps.foldl setInsert acc ↔ q ∈ acc ∨ q ∈ ps := by
  induction ps with
  | nil => intro acc q; simp
  | cons p rest ih =>
    intro acc q
    rw [List.foldl_cons, ih (setInsert acc p) q, setInsert_mem]
    simp only [List.mem_cons]
    tauto

/-- C7: building a kdtree PointSet from a finite point list (the loading
constructor: `std::set` deduplication, the balanced bulk build, then
`set_parents(m_root)`) and enumerating it with the full begin/next cursor
yields exactly the members of the input list — proved here for every
non-empty list (the `std::set` deduplication only collapses exact duplicates,
which does not change the set of members).  For the empty list the
construction itself is broken: the constructor calls `set_parents`
unconditionally on the null root it just built, dereferencing a null node
(the same slip as in the copy constructor, C9), so the empty case fails
instead of round-tripping to an empty enumeration. -/
theorem C7_roundtrip (ps : List Point) :
    ofList [] = .error () ∧
      (ps ≠ [] → ∃ t, ofList ps = .ok t ∧ ∀ q, q ∈ iterList t ↔ q ∈ ps) := by
  constructor
  · rfl
  · intro hne
    obtain ⟨q0, hq0⟩ := List.exists_mem_of_ne_nil ps hne
    have hq0d : q0 ∈ ps.foldl setInsert [] :=
      (foldl_setInsert_mem ps [] q0).mpr (Or.inr hq0)
    have hdne : ps.foldl setInsert [] ≠ [] := List.ne_nil_of_mem hq0d
    have htne : build_tree (ps.foldl setInsert []) true ≠ .nil :=
      build_tree_ne_nil _ _ hdne
    have hsp : set_parentsE (build_tree (ps.foldl setInsert []) true) = .ok () := by
      cases ht : build_tree (ps.foldl setInsert []) true with
      | nil => exact absurd ht htne
      | mk a b c d e => rfl
    refine ⟨build_tree (ps.foldl setInsert []) true, ?_, ?_⟩
    · rw [ofList, hsp]
    · intro q
      rw [iterList_eq_inorder]
      rw [(build_tree_inorder_perm (ps.foldl setInsert []) true).mem_iff,
        foldl_setInsert_mem]
      simp

/-- Witness for C7: the input list [(0,0),(1,1),(0,0)] builds successfully
and round-trips, while the empty list errors. -/
theorem C7_roundtrip_witness :
    ofList [] = .error () ∧
      (([(⟨0, 0⟩ : Point), ⟨1, 1⟩, ⟨0, 0⟩] ≠ ([] : List Point)) ∧
        ∃ t, ofList [(⟨0, 0⟩ : Point), ⟨1, 1⟩, ⟨0, 0⟩] = .ok t ∧
          ∀ q, q ∈ iterList t ↔ q ∈ [(⟨0, 0⟩ : Point), ⟨1, 1⟩, ⟨0, 0⟩]) :=
  ⟨(C7_roundtrip []).1,
   by decide,
   (C7_roundtrip [⟨0, 0⟩, ⟨1, 1⟩, ⟨0, 0⟩]).2 (by decide)⟩

/-- C10: `put` never removes or alters an existing element: the full-traversal
enumeration after `put p` contains every previously enumerated point, and
contains nothing beyond the previous points and `p` itself. -/
theorem C10_put_frame (t : Node) (p : Point) :
    (∀ q ∈ iterList t, q ∈ iterList (put t p)) ∧
      (∀ q ∈ iterList (put t p), q ∈ iterList t ∨ q = p) := by
  rw [iterList_eq_inorder, iterList_eq_inorder]
  constructor
  · intro q hq
    by_cases hc : t.containsB p = true
    · rw [(put_inorder_perm t p).mem_iff]
      rw [if_pos hc]
      exact hq
    · rw [(put_inorder_perm t p).mem_iff]
      rw [if_neg hc]
      exact List.mem_cons_of_mem p hq
  · intro q hq
    rw [(put_inorder_perm t p).mem_iff] at hq
    by_cases hc : t.containsB p = true
    · rw [if_pos hc] at hq
      exact Or.inl hq
    · rw [if_neg hc] at hq
      rcases List.mem_cons.mp hq with hq | hq
      · exact Or.inr hq
      · exact Or.inl hq

/-!  ### The pruning bound of nearest-neighbour search  -/

theorem in_quad_first_iff (s o : Point) :
    s.in_quad o .First = true ↔ o.x > s.x - EPS ∧ o.y > s.y - EPS := by
  simp [Point.in_quad]

theorem in_quad_second_iff (s o : Point) :
    s.in_quad o .Second = true ↔ o.x < s.x + EPS ∧ o.y > s.y - EPS := by
  simp [Point.in_quad]

theorem in_quad_third_iff (s o : Point) :
    s.in_quad o .Third = true ↔ o.x < s.x + EPS ∧ o.y < s.y + EPS := by
  simp [Point.in_quad]

theorem in_quad_fourth_iff (s o : Point) :
    s.in_quad o .Fourth = true ↔ o.x > s.x - EPS ∧ o.y < s.y + EPS := by
  simp [Point.in_quad]

theorem dist2_cast (a b : Point) :
    ((dist2 a b : ℚ) : ℝ) =
      ((a.x : ℝ) - (b.x : ℝ)) ^ 2 + ((a.y : ℝ) - (b.y : ℝ)) ^ 2 := by
  simp only [dist2, sqr]
  push_cast
  ring

/-- The coordinatewise-perturbation bound behind the EPS-fringe slack: if each
coordinate gap grows by at most `e` in absolute value, the Euclidean length
grows by at most `2e`. -/
theorem sqrt_gap_le (dx dy ax ay e : ℝ) (he : 0 ≤ e)
    (hx : |dx| ≤ |ax| + e) (hy : |dy| ≤ |ay| + e) :
    Real.sqrt (dx ^ 2 + dy ^ 2) ≤ Real.sqrt (ax ^ 2 + ay ^ 2) + 2 * e := by
  set s := Real.sqrt (ax ^ 2 + ay ^ 2) with hs
  have hs0 : 0 ≤ s := Real.sqrt_nonneg _
  have hsq : s ^ 2 = ax ^ 2 + ay ^ 2 := Real.sq_sqrt (by positivity)
  have hax : |ax| ≤ s := Real.abs_le_sqrt (by nlinarith [sq_nonneg ay, sq_abs ax])
  have hay : |ay| ≤ s := Real.abs_le_sqrt (by nlinarith [sq_nonneg ax, sq_abs ay])
  have hdx : dx ^ 2 ≤ (|ax| + e) ^ 2 := by
    have h0 : dx ^ 2 = |dx| ^ 2 := (sq_abs dx).symm
    rw [h0]
    exact pow_le_pow_left₀ (abs_nonneg dx) hx 2
  have hdy : dy ^ 2 ≤ (|ay| + e) ^ 2 := by
    have h0 : dy ^ 2 = |dy| ^ 2 := (sq_abs dy).symm
    rw [h0]
    exact pow_le_pow_left₀ (abs_nonneg dy) hy 2
  have hmain : dx ^ 2 + dy ^ 2 ≤ (s + 2 * e) ^ 2 := by
    nlinarith [sq_abs ax, sq_abs ay, abs_nonneg ax, abs_nonneg ay]
  calc Real.sqrt (dx ^ 2 + dy ^ 2) ≤ Real.sqrt ((s + 2 * e) ^ 2) :=
        Real.sqrt_le_sqrt hmain
    _ = s + 2 * e := Real.sqrt_sq (by positivity)

/-- A single coordinate gap is below the Euclidean length. -/
theorem coord_le_sqrt (dx dy : ℝ) : dx ≤ Real.sqrt (dx ^ 2 + dy ^ 2) :=
  le_trans (le_abs_self dx)
    (Real.abs_le_sqrt (by nlinarith [sq_nonneg dy]))

/-- Coordinate gap towards an upper bound `c`: when `q`'s coordinate is below
`c` and `p`'s is above `c − e`, the gap from `p` to `c` exceeds the gap from
`p` to `q` by at most `e`. -/
theorem abs_gap_le_hi (c pv qv e : ℝ) (he : 0 ≤ e) (hq : qv ≤ c) (hp : c - e < pv) :
    |pv - c| ≤ |pv - qv| + e := by
  rcases le_total c pv with hc | hc
  · rw [abs_of_nonneg (by linarith)]
    have h1 : pv - c ≤ pv - qv := by linarith
    linarith [le_abs_self (pv - qv)]
  · rw [abs_of_nonpos (by linarith)]
    have h1 : -(pv - c) < e := by linarith
    linarith [abs_nonneg (pv - qv)]

/-- Coordinate gap towards a lower bound `c`: dual of `abs_gap_le_hi`. -/
theorem abs_gap_le_lo (c pv qv e : ℝ) (he : 0 ≤ e) (hq : c ≤ qv) (hp : pv < c + e) :
    |pv - c| ≤ |pv - qv| + e := by
  rcases le_total pv c with hc | hc
  · rw [abs_of_nonpos (by linarith)]
    have h1 : -(pv - c) ≤ -(pv - qv) := by linarith
    have h2 : -(pv - qv) ≤ |pv - qv| := neg_le_abs _
    linarith
  · rw [abs_of_nonneg (by linarith)]
    have h1 : pv - c < e := by linarith
    linarith [abs_nonneg (pv - qv)]

theorem right_top_x (r : Rect) : r.right_top.x = r.xmax := rfl

theorem right_top_y (r : Rect) : r.right_top.y = r.ymax := rfl

theorem left_bottom_x (r : Rect) : r.left_bottom.x = r.xmin := rfl

theorem left_bottom_y (r : Rect) : r.left_bottom.y = r.ymin := rfl

/-- The EPS-fringe admissibility bound for `Rect::distance`: on a well-formed
rect it never exceeds the true distance from `p` to any point of the closed
box by more than `2·EPS`.  (Exact admissibility fails: see the C5
counterexample.) -/
theorem rect_distD_le (r : Rect) (p q : Point) (hwf : r.wfB = true)
    (hq : Bounds r q) :
    (r.distD p).toReal ≤ Real.sqrt ((dist2 p q : ℚ) : ℝ) + 2 * ((EPS : ℚ) : ℝ) := by
  obtain ⟨hq1, hq2, hq3, hq4⟩ := hq
  rw [Rect.wfB, decide_eq_true_eq] at hwf
  obtain ⟨hw1, hw2⟩ := hwf
  have heR : (0 : ℝ) ≤ ((EPS : ℚ) : ℝ) := by exact_mod_cast le_of_lt EPS_pos
  have hsq0 : (0 : ℝ) ≤ Real.sqrt ((dist2 p q : ℚ) : ℝ) := Real.sqrt_nonneg _
  have hq1R : ((r.xmin : ℚ) : ℝ) ≤ ((q.x : ℚ) : ℝ) := by exact_mod_cast hq1
  have hq2R : ((q.x : ℚ) : ℝ) ≤ ((r.xmax : ℚ) : ℝ) := by exact_mod_cast hq2
  have hq3R : ((r.ymin : ℚ) : ℝ) ≤ ((q.y : ℚ) : ℝ) := by exact_mod_cast hq3
  have hq4R : ((q.y : ℚ) : ℝ) ≤ ((r.ymax : ℚ) : ℝ) := by exact_mod_cast hq4
  rw [Rect.distD]
  by_cases hcont : r.containsB p = true
  · rw [if_pos hcont]
    show ((0 : ℚ) : ℝ) ≤ _
    push_cast
    positivity
  rw [if_neg hcont]
  by_cases h1 : r.right_top.in_quad p .First = true
  · rw [if_pos h1]
    rw [in_quad_first_iff, right_top_x, right_top_y] at h1
    obtain ⟨ha, hb⟩ := h1
    have haR : ((r.xmax : ℚ) : ℝ) - ((EPS : ℚ) : ℝ) < ((p.x : ℚ) : ℝ) := by
      exact_mod_cast sub_lt_iff_lt_add.mpr (by linarith [sub_lt_iff_lt_add.mp ha] : r.xmax < p.x + EPS)
    have hbR : ((r.ymax : ℚ) : ℝ) - ((EPS : ℚ) : ℝ) < ((p.y : ℚ) : ℝ) := by
      exact_mod_cast sub_lt_iff_lt_add.mpr (by linarith [sub_lt_iff_lt_add.mp hb] : r.ymax < p.y + EPS)
    show Real.sqrt ((dist2 r.right_top p : ℚ) : ℝ) ≤ _
    rw [dist2_cast, dist2_cast]
    apply sqrt_gap_le _ _ _ _ _ heR
    · rw [right_top_x, abs_sub_comm]
      exact abs_gap_le_hi _ _ _ _ heR hq2R haR
    · rw [right_top_y, abs_sub_comm]
      exact abs_gap_le_hi _ _ _ _ heR hq4R hbR
  rw [if_neg h1]
  by_cases h2 : r.left_bottom.in_quad p .Third = true
  · rw [if_pos h2]
    rw [in_quad_third_iff, left_bottom_x, left_bottom_y] at h2
    obtain ⟨ha, hb⟩ := h2
    have haR : ((p.x : ℚ) : ℝ) < ((r.xmin : ℚ) : ℝ) + ((EPS : ℚ) : ℝ) := by
      exact_mod_cast ha
    have hbR : ((p.y : ℚ) : ℝ) < ((r.ymin : ℚ) : ℝ) + ((EPS : ℚ) : ℝ) := by
      exact_mod_cast hb
    show Real.sqrt ((dist2 r.left_bottom p : ℚ) : ℝ) ≤ _
    rw [dist2_cast, dist2_cast]
    apply sqrt_gap_le _ _ _ _ _ heR
    · rw [left_bottom_x, abs_sub_comm]
      exact abs_gap_le_lo _ _ _ _ heR hq1R haR
    · rw [left_bottom_y, abs_sub_comm]
      exact abs_gap_le_lo _ _ _ _ heR hq3R hbR
  rw [if_neg h2]
  by_cases h3 : r.right_top.in_quad p .Fourth = true
  · rw [if_pos h3]
    rw [in_quad_fourth_iff, right_top_x, right_top_y] at h3
    obtain ⟨ha, hb⟩ := h3
    have haR : ((r.xmax : ℚ) : ℝ) - ((EPS : ℚ) : ℝ) < ((p.x : ℚ) : ℝ) := by
      exact_mod_cast sub_lt_iff_lt_add.mpr (by linarith [sub_lt_iff_lt_add.mp ha] : r.xmax < p.x + EPS)
    by_cases hy : p.y > r.ymin
    · rw [if_pos hy]
      show ((p.x - r.xmax : ℚ) : ℝ) ≤ _
      have step : ((p.x : ℚ) : ℝ) - ((r.xmax : ℚ) : ℝ) ≤ ((p.x : ℚ) : ℝ) - ((q.x : ℚ) : ℝ) := by
        linarith
      have step2 : ((p.x : ℚ) : ℝ) - ((q.x : ℚ) : ℝ) ≤ Real.sqrt ((dist2 p q : ℚ) : ℝ) := by
        rw [dist2_cast]
        exact coord_le_sqrt _ _
      push_cast
      push_cast at step step2
      linarith
    · rw [if_neg hy]
      have hyQ : p.y ≤ r.ymin := le_of_not_lt hy
      have hyR : ((p.y : ℚ) : ℝ) ≤ ((r.ymin : ℚ) : ℝ) := by exact_mod_cast hyQ
      show Real.sqrt ((dist2 p ⟨r.xmax, r.ymin⟩ : ℚ) : ℝ) ≤ _
      rw [dist2_cast, dist2_cast]
      apply sqrt_gap_le _ _ _ _ _ heR
      · exact abs_gap_le_hi _ _ _ _ heR hq2R haR
      · show |((p.y : ℚ) : ℝ) - ((r.ymin : ℚ) : ℝ)| ≤ _
        rw [abs_of_nonpos (by linarith)]
        have h5 : -(((p.y : ℚ) : ℝ) - ((r.ymin : ℚ) : ℝ)) ≤
            -(((p.y : ℚ) : ℝ) - ((q.y : ℚ) : ℝ)) := by linarith
        have h6 := neg_le_abs (((p.y : ℚ) : ℝ) - ((q.y : ℚ) : ℝ))
        linarith
  rw [if_neg h3]
  by_cases h4 : r.left_bottom.in_quad p .Second = true
  · rw [if_pos h4]
    rw [in_quad_second_iff, left_bottom_x, left_bottom_y] at h4
    obtain ⟨ha, hb⟩ := h4
    by_cases hy : p.y > r.ymin
    · rw [if_pos hy]
      show ((r.xmin - p.x : ℚ) : ℝ) ≤ _
      have step2 : ((q.x : ℚ) : ℝ) - ((p.x : ℚ) : ℝ) ≤ Real.sqrt ((dist2 p q : ℚ) : ℝ) := by
        rw [dist2_cast]
        have := coord_le_sqrt (((q.x : ℚ) : ℝ) - ((p.x : ℚ) : ℝ)) (((p.y : ℚ) : ℝ) - ((q.y : ℚ) : ℝ))
        calc ((q.x : ℚ) : ℝ) - ((p.x : ℚ) : ℝ)
            ≤ Real.sqrt ((((q.x : ℚ) : ℝ) - ((p.x : ℚ) : ℝ)) ^ 2 +
                (((p.y : ℚ) : ℝ) - ((q.y : ℚ) : ℝ)) ^ 2) := this
          _ = Real.sqrt ((((p.x : ℚ) : ℝ) - ((q.x : ℚ) : ℝ)) ^ 2 +
                (((p.y : ℚ) : ℝ) - ((q.y : ℚ) : ℝ)) ^ 2) := by ring_nf
      push_cast
      push_cast at step2
      linarith
    · -- unreachable: the Third-quadrant test of left_bottom would have fired
      exfalso
      have hyQ : p.y ≤ r.ymin := le_of_not_lt hy
      rw [in_quad_third_iff, left_bottom_x, left_bottom_y] at h2
      push_neg at h2
      have he := EPS_pos
      have hcon : p.y < r.ymin + EPS := by linarith
      exact absurd hcon (not_lt.mpr (h2 ha))
  rw [if_neg h4]
  by_cases hy : p.y > r.ymax
  · rw [if_pos hy]
    show ((p.y - r.ymax : ℚ) : ℝ) ≤ _
    have step2 : ((p.y : ℚ) : ℝ) - ((q.y : ℚ) : ℝ) ≤ Real.sqrt ((dist2 p q : ℚ) : ℝ) := by
      rw [dist2_cast]
      calc ((p.y : ℚ) : ℝ) - ((q.y : ℚ) : ℝ)
          ≤ Real.sqrt ((((p.y : ℚ) : ℝ) - ((q.y : ℚ) : ℝ)) ^ 2 +
              (((p.x : ℚ) : ℝ) - ((q.x : ℚ) : ℝ)) ^ 2) := coord_le_sqrt _ _
        _ = Real.sqrt ((((p.x : ℚ) : ℝ) - ((q.x : ℚ) : ℝ)) ^ 2 +
              (((p.y : ℚ) : ℝ) - ((q.y : ℚ) : ℝ)) ^ 2) := by ring_nf
    push_cast
    push_cast at step2
    linarith
  · rw [if_neg hy]
    show ((r.ymin - p.y : ℚ) : ℝ) ≤ _
    have step2 : ((q.y : ℚ) : ℝ) - ((p.y : ℚ) : ℝ) ≤ Real.sqrt ((dist2 p q : ℚ) : ℝ) := by
      rw [dist2_cast]
      calc ((q.y : ℚ) : ℝ) - ((p.y : ℚ) : ℝ)
          ≤ Real.sqrt ((((q.y : ℚ) : ℝ) - ((p.y : ℚ) : ℝ)) ^ 2 +
              (((p.x : ℚ) : ℝ) - ((q.x : ℚ) : ℝ)) ^ 2) := coord_le_sqrt _ _
        _ = Real.sqrt ((((p.x : ℚ) : ℝ) - ((q.x : ℚ) : ℝ)) ^ 2 +
              (((p.y : ℚ) : ℝ) - ((q.y : ℚ) : ℝ)) ^ 2) := by ring_nf
    push_cast
    push_cast at step2
    linarith

/-!  ### Behaviour of the nearest-neighbour search  -/

theorem distance_toReal (a b : Point) :
    (a.distance b).toReal = Real.sqrt ((dist2 a b : ℚ) : ℝ) := rfl

theorem nearestGo_some (t : Node) (p : Point) :
    ∀ (st : D × Option Point), st.2.isSome = true →
      (nearestGo t p st).2.isSome = true := by
  induction t with
  | nil => intro st h; exact h
  | mk q nrect s l r ihl ihr =>
    intro st h
    rw [nearestGo]
    by_cases hp : (!(D.lt (nrect.distD p) st.1)) = true
    · rw [if_pos hp]; exact h
    · rw [if_neg hp]
      apply ihr
      apply ihl
      by_cases hu : D.lt (p.distance q) st.1 = true
      · simp [hu]
      · simpa [hu] using h

theorem nearestGo_none_eq (t : Node) (p : Point) :
    ∀ (st : D × Option Point), (nearestGo t p st).2 = none →
      nearestGo t p st = st := by
  induction t with
  | nil => intro st _; rfl
  | mk q nrect s l r ihl ihr =>
    intro st h
    by_cases hp : (!(D.lt (nrect.distD p) st.1)) = true
    · rw [nearestGo, if_pos hp]
    · rw [nearestGo, if_neg hp] at h ⊢
      set st1 := if D.lt (p.distance q) st.1 then (p.distance q, some q) else st with hst1
      have h2 : nearestGo r p (nearestGo l p st1) = nearestGo l p st1 := ihr _ h
      rw [h2] at h ⊢
      have h3 : nearestGo l p st1 = st1 := ihl _ h
      rw [h3] at h ⊢
      by_cases hu : D.lt (p.distance q) st.1 = true
      · rw [hst1, if_pos hu] at h
        exact absurd h (by simp)
      · rw [hst1, if_neg hu]

theorem nearestGo_far (t : Node) (p : Point) (m : ℚ)
    (h : ∀ q ∈ t.inorder, D.lt (p.distance q) (.lin m) = false) :
    nearestGo t p (.lin m, none) = (.lin m, none) := by
  induction t with
  | nil => rfl
  | mk q nrect s l r ihl ihr =>
    by_cases hp : (!(D.lt (nrect.distD p) (D.lin m, (none : Option Point)).1)) = true
    · rw [nearestGo, if_pos hp]
    · rw [nearestGo, if_neg hp]
      have hq : q ∈ (Node.mk q nrect s l r).inorder := by simp [Node.inorder]
      have hu : D.lt (p.distance q) (D.lin m) = false := h q hq
      have hst1 : (if D.lt (p.distance q) (D.lin m, (none : Option Point)).1 then
          (p.distance q, some q) else (D.lin m, none)) = (D.lin m, none) := by
        simp [hu]
      rw [hst1]
      show nearestGo r p (nearestGo l p (D.lin m, none)) = (D.lin m, none)
      rw [ihl fun x hx => h x (by simp [Node.inorder, hx]),
        ihr fun x hx => h x (by simp [Node.inorder, hx])]

theorem nearestGo_finds (t : Node) (p : Point) (hrk : RectOkB t = true) :
    ∀ (st : D × Option Point) (q : Point), q ∈ t.inorder →
      Real.sqrt ((dist2 p q : ℚ) : ℝ) + 2 * ((EPS : ℚ) : ℝ) < st.1.toReal →
      (nearestGo t p st).2.isSome = true := by
  induction t with
  | nil => intro st q hq; simp [Node.inorder] at hq
  | mk w nrect s l r ihl ihr =>
    intro st q hq hd
    have heR : (0 : ℝ) ≤ ((EPS : ℚ) : ℝ) := by exact_mod_cast le_of_lt EPS_pos
    simp only [RectOkB, Bool.and_eq_true, decide_eq_true_eq] at hrk
    obtain ⟨⟨hrc, hrl⟩, hrr⟩ := hrk
    have hrk2 : RectOkB (.mk w nrect s l r) = true := by
      simp [RectOkB, hrc, hrl, hrr]
    have hprune : D.lt (nrect.distD p) st.1 = true := by
      cases hpr : D.lt (nrect.distD p) st.1 with
      | true => rfl
      | false =>
        exfalso
        have h1 : st.1.toReal ≤ (nrect.distD p).toReal := (D.not_lt_iff _ _).mp hpr
        have h2 : (nrect.distD p).toReal ≤
            Real.sqrt ((dist2 p q : ℚ) : ℝ) + 2 * ((EPS : ℚ) : ℝ) := by
          have hb : Bounds nrect q := by
            have := (rectOk_bbox (.mk w nrect s l r) hrk2 (by simp)).1 q hq
            exact this
          have hwf : nrect.wfB = true := rectOk_wf (.mk w nrect s l r) hrk2 (by simp)
          exact rect_distD_le nrect p q hwf hb
        linarith
    rw [nearestGo, if_neg (by simp [hprune])]
    by_cases hu : D.lt (p.distance w) st.1 = true
    · have hst1 : (if D.lt (p.distance w) st.1 then (p.distance w, some w) else st) =
          (p.distance w, some w) := by rw [if_pos hu]
      rw [hst1]
      exact nearestGo_some r p _ (nearestGo_some l p _ (by simp))
    · have hst1 : (if D.lt (p.distance w) st.1 then (p.distance w, some w) else st) = st := by
        rw [if_neg hu]
      rw [hst1]
      show (nearestGo r p (nearestGo l p st)).2.isSome = true
      simp only [Node.inorder, List.mem_append, List.mem_cons] at hq
      rcases hq with hq | hq | hq
      · exact nearestGo_some r p _ (ihl hrl st q hq hd)
      · exfalso
        subst hq
        have h1 : st.1.toReal ≤ (p.distance q).toReal := (D.not_lt_iff _ _).mp (by
          cases hx : D.lt (p.distance q) st.1 with
          | true => exact absurd hx hu
          | false => rfl)
        rw [distance_toReal] at h1
        linarith
      · cases hsl : (nearestGo l p st).2 with
        | some v => exact nearestGo_some r p _ (by simp [hsl])
        | none =>
          rw [nearestGo_none_eq l p st hsl]
          exact ihr hrr st q hq hd

/-!  ### Claim theorems: C3 and C5  -/

/-- C3 (amended): `nearest(p)` returns an empty optional when the set is
empty, and also when every stored point lies at distance at least DBL_MAX from
`p` — possible at representable coordinates, because the best distance is
initialized to `std::numeric_limits<double>::max()` (the largest finite
double), not +infinity.  Whenever some stored point lies at distance below
DBL_MAX − 2·EPS, the search does return a point.  (The original claim — empty
optional iff the set is empty — is refuted by `C3_counterexample`.) -/
theorem C3_nearest_none (t : Node) (p : Point) (hr : RectOkB t = true) :
    (t = .nil → nearestOpt t p = none) ∧
      ((∀ q ∈ t.inorder, DBLMAX ^ 2 ≤ dist2 p q) → nearestOpt t p = none) ∧
      ((∃ q ∈ t.inorder, dist2 p q < (DBLMAX - 2 * EPS) ^ 2) →
        (nearestOpt t p).isSome = true) := by
  refine ⟨?_, ?_, ?_⟩
  · intro h; subst h; rfl
  · intro hfar
    rw [nearestOpt]
    have h : ∀ q ∈ t.inorder, D.lt (p.distance q) (.lin DBLMAX) = false := by
      intro q hq
      have hf := hfar q hq
      rw [Point.distance]
      show decide (0 < DBLMAX ∧ (dist2 p q < DBLMAX * DBLMAX ∨ dist2 p q ≤ 0)) = false
      rw [decide_eq_false_iff_not]
      rintro ⟨hM, hcase | hcase⟩
      · nlinarith [sq_nonneg DBLMAX]
      · nlinarith [DBLMAX_pos]
    rw [nearestGo_far t p DBLMAX h]
  · rintro ⟨q, hq, hclose⟩
    rw [nearestOpt]
    apply nearestGo_finds t p hr (.lin DBLMAX, none) q hq
    have hpos : (0 : ℚ) < DBLMAX - 2 * EPS := by decide
    have hposR : (0 : ℝ) < ((DBLMAX - 2 * EPS : ℚ) : ℝ) := by exact_mod_cast hpos
    have hcloseR : ((dist2 p q : ℚ) : ℝ) < ((DBLMAX - 2 * EPS : ℚ) : ℝ) ^ 2 := by
      have : ((dist2 p q : ℚ) : ℝ) < (((DBLMAX - 2 * EPS) ^ 2 : ℚ) : ℝ) := by
        exact_mod_cast hclose
      rw [show (((DBLMAX - 2 * EPS) ^ 2 : ℚ) : ℝ) = ((DBLMAX - 2 * EPS : ℚ) : ℝ) ^ 2 by
        push_cast; ring] at this
      exact this
    have hsq : Real.sqrt ((dist2 p q : ℚ) : ℝ) < ((DBLMAX - 2 * EPS : ℚ) : ℝ) :=
      (Real.sqrt_lt' hposR).mpr hcloseR
    show Real.sqrt ((dist2 p q : ℚ) : ℝ) + 2 * ((EPS : ℚ) : ℝ) < ((DBLMAX : ℚ) : ℝ)
    have hexp : ((DBLMAX - 2 * EPS : ℚ) : ℝ) = ((DBLMAX : ℚ) : ℝ) - 2 * ((EPS : ℚ) : ℝ) := by
      push_cast; ring
    rw [hexp] at hsq
    linarith

/-- Witness for C3: the one-point set {(0,0)} and query (3,4): the point is
well within DBL_MAX − 2·EPS, so the search finds it. -/
theorem C3_nearest_none_witness :
    RectOkB (put .nil ⟨0, 0⟩) = true ∧
      ((put .nil ⟨0, 0⟩ = .nil → nearestOpt (put .nil ⟨0, 0⟩) ⟨3, 4⟩ = none) ∧
        ((∀ q ∈ (put .nil ⟨0, 0⟩).inorder, DBLMAX ^ 2 ≤ dist2 ⟨3, 4⟩ q) →
          nearestOpt (put .nil ⟨0, 0⟩) ⟨3, 4⟩ = none) ∧
        ((∃ q ∈ (put .nil ⟨0, 0⟩).inorder,
            dist2 ⟨3, 4⟩ q < (DBLMAX - 2 * EPS) ^ 2) →
          (nearestOpt (put .nil ⟨0, 0⟩) ⟨3, 4⟩).isSome = true)) :=
  ⟨by decide, C3_nearest_none _ _ (by decide)⟩

/-- Counterexample to C3 as stated: the non-empty set {(DBL_MAX/2, 0)} with
query (−DBL_MAX/2, 0).  The only point lies at distance exactly DBL_MAX, which
is not below the initial best distance `max()`, so the root is pruned and the
empty optional is returned although the set is non-empty.  (Also refutes "the
best distance is initialized to +infinity": the initializer is the largest
finite double.) -/
theorem C3_counterexample :
    put .nil ⟨DBLMAX / 2, 0⟩ ≠ .nil ∧
      nearestOpt (put .nil ⟨DBLMAX / 2, 0⟩) ⟨-DBLMAX / 2, 0⟩ = none := by
  decide

/-- C5 (amended): for a well-formed rect, `Rect::distance(p)` never exceeds
the true distance from `p` to any point of the closed box by more than 2·EPS,
and it is exactly 0 whenever the rect epsilon-contains `p`.  It is NOT an
admissible lower bound in the exact sense: `C5_counterexample` exhibits a
point for which it strictly exceeds the true minimum distance (by a fringe
case in the corner dispatch when `p` lies within EPS inside a corner
coordinate). -/
theorem C5_rect_distance (r : Rect) (p q : Point)
    (hwf : r.wfB = true) (hq : r.memB q = true) :
    (r.distD p).toReal ≤ Real.sqrt ((dist2 p q : ℚ) : ℝ) + 2 * ((EPS : ℚ) : ℝ) ∧
      (r.containsB p = true → r.distD p = .lin 0) := by
  refine ⟨rect_distD_le r p q hwf ((memB_iff r q).mp hq), fun hc => ?_⟩
  rw [Rect.distD, if_pos hc]

/-- Witness for C5: the unit square, the outside point (2,2) and the corner
point (1,1). -/
theorem C5_rect_distance_witness :
    Rect.wfB ⟨⟨0, 0⟩, ⟨1, 1⟩⟩ = true ∧
      Rect.memB ⟨⟨0, 0⟩, ⟨1, 1⟩⟩ ⟨1, 1⟩ = true ∧
      ((Rect.distD ⟨⟨0, 0⟩, ⟨1, 1⟩⟩ ⟨2, 2⟩).toReal ≤
          Real.sqrt ((dist2 ⟨2, 2⟩ ⟨1, 1⟩ : ℚ) : ℝ) + 2 * ((EPS : ℚ) : ℝ) ∧
        (Rect.containsB ⟨⟨0, 0⟩, ⟨1, 1⟩⟩ ⟨2, 2⟩ = true →
          Rect.distD ⟨⟨0, 0⟩, ⟨1, 1⟩⟩ ⟨2, 2⟩ = .lin 0)) :=
  ⟨by decide, by decide, C5_rect_distance _ _ _ (by decide) (by decide)⟩

/-- Counterexample to C5 as stated: the unit square with the query point
`p = (1 − EPS/2, −1)`.  The point `q = (1 − EPS/2, 0)` lies inside the rect at
distance exactly 1 from `p`, but the Fourth-quadrant corner branch returns the
distance from `p` to the corner (1, 0), which is `sqrt(1 + EPS²/4) > 1`: the
claimed admissible lower bound overestimates the true minimum distance. -/
theorem C5_counterexample :
    Rect.wfB ⟨⟨0, 0⟩, ⟨1, 1⟩⟩ = true ∧
      Rect.memB ⟨⟨0, 0⟩, ⟨1, 1⟩⟩ ⟨1 - EPS / 2, 0⟩ = true ∧
      Real.sqrt ((dist2 ⟨1 - EPS / 2, -1⟩ ⟨1 - EPS / 2, 0⟩ : ℚ) : ℝ) <
        (Rect.distD ⟨⟨0, 0⟩, ⟨1, 1⟩⟩ ⟨1 - EPS / 2, -1⟩).toReal := by
  refine ⟨by decide, by decide, ?_⟩
  have h1 : Rect.distD ⟨⟨0, 0⟩, ⟨1, 1⟩⟩ ⟨1 - EPS / 2, -1⟩ =
      D.sqrtOf (dist2 ⟨1 - EPS / 2, -1⟩ ⟨1, 0⟩) := by decide
  rw [h1]
  show Real.sqrt _ < Real.sqrt _
  apply Real.sqrt_lt_sqrt
  · exact_mod_cast dist2_nonneg _ _
  · exact_mod_cast (by decide :
      dist2 ⟨1 - EPS / 2, -1⟩ ⟨1 - EPS / 2, 0⟩ < dist2 ⟨1 - EPS / 2, -1⟩ ⟨1, 0⟩)

/-!  ### Claim theorems: C6, C8, C9  -/

/-- C6 (amended): on the set {(0,0),(1,1),(2,2),(0,2),(2,0)} (built by puts in
that order; the bulk build yields the same answers), `range(Rect((0,0),(1,1)))`
yields the set {(0,0),(1,1)} and `nearest((0.9,0.9))` returns (1,1), as
claimed.  `nearest((1,1),3)` yields the set {(1,1),(0,0),(0,2)} — the point
(1,1) at distance 0 plus two points at distance √2 — rather than the claimed
{(1,1),(0,0),(2,2)}: all four corner points are equidistant from (1,1) at √2,
and the strict-improvement heap scan keeps the first two in-order seeds. -/
theorem C6_scenario :
    (rangeList (putList .nil [⟨0, 0⟩, ⟨1, 1⟩, ⟨2, 2⟩, ⟨0, 2⟩, ⟨2, 0⟩])
        ⟨⟨0, 0⟩, ⟨1, 1⟩⟩).Perm [⟨0, 0⟩, ⟨1, 1⟩] ∧
      nearestOpt (putList .nil [⟨0, 0⟩, ⟨1, 1⟩, ⟨2, 2⟩, ⟨0, 2⟩, ⟨2, 0⟩])
        ⟨9 / 10, 9 / 10⟩ = some ⟨1, 1⟩ ∧
      (knearestList (putList .nil [⟨0, 0⟩, ⟨1, 1⟩, ⟨2, 2⟩, ⟨0, 2⟩, ⟨2, 0⟩])
        ⟨1, 1⟩ 3).Perm [⟨1, 1⟩, ⟨0, 0⟩, ⟨0, 2⟩] ∧
      Point.distance ⟨1, 1⟩ ⟨1, 1⟩ = .sqrtOf 0 ∧
      Point.distance ⟨1, 1⟩ ⟨0, 0⟩ = .sqrtOf 2 ∧
      Point.distance ⟨1, 1⟩ ⟨0, 2⟩ = .sqrtOf 2 := by
  decide

/-- Counterexample to C6 as stated: `nearest((1,1), 3)` on that set does not
yield {(1,1),(0,0),(2,2)} (the only set the claim allows — swapping the two
named equidistant points yields the same set). -/
theorem C6_counterexample :
    ¬ (knearestList (putList .nil [⟨0, 0⟩, ⟨1, 1⟩, ⟨2, 2⟩, ⟨0, 2⟩, ⟨2, 0⟩])
        ⟨1, 1⟩ 3).Perm [⟨1, 1⟩, ⟨0, 0⟩, ⟨2, 2⟩] := by
  decide

/-- C8 (amended): an exhausted cursor is represented per backing form, not
uniformly.  Consuming a list-backed cursor to its end yields the
default-constructed iterator (the second iterator of the pairs returned by
`range` and k-nearest) — the variant's first alternative with an empty vector —
while the full-traversal cursor exhausts to the null node iterator `end()`.
The two exhausted forms never compare equal: `std::variant::operator==` is
false on differing alternative indices. -/
theorem C8_exhausted_iterators (t : Node) (l : List Point) (path : List Bool)
    (hn : nextPath t path = none) :
    (IterData.advance t (.vlist l) = defaultIter ↔ l.length ≤ 1) ∧
      defaultIter ≠ endIter ∧
      IterData.advance t (.vnode (some path)) = endIter := by
  refine ⟨?_, by simp [defaultIter, endIter], ?_⟩
  · constructor
    · intro h
      simp only [IterData.advance, defaultIter, IterData.vlist.injEq] at h
      have := congrArg List.length h
      rw [List.length_dropLast] at this
      simp only [List.length_nil] at this
      omega
    · intro h
      rcases l with _ | ⟨x, rest⟩
      · rfl
      · rcases rest with _ | ⟨y, rest2⟩
        · rfl
        · simp at h
  · show IterData.vnode (nextPath t path) = endIter
    rw [hn]
    rfl

/-- Witness for C8: the one-point set {(0,0)}; its single-node traversal path
has no successor, and the one-element range result list exhausts in one
step. -/
theorem C8_exhausted_iterators_witness :
    nextPath (put .nil ⟨0, 0⟩) [] = none ∧
      ((IterData.advance (put .nil ⟨0, 0⟩) (.vlist [⟨0, 0⟩]) = defaultIter ↔
          ([(⟨0, 0⟩ : Point)]).length ≤ 1) ∧
        defaultIter ≠ endIter ∧
        IterData.advance (put .nil ⟨0, 0⟩) (.vnode (some [])) = endIter) :=
  ⟨by decide, C8_exhausted_iterators _ _ _ (by decide)⟩

/-- Counterexample to C8 as stated: on the set {(0,0)}, `range` over a
covering rect returns a one-element match list; advancing that list-backed
iterator past its last element does NOT compare equal to the full-traversal
`end()` iterator (the variant indices differ), contradicting the claimed
uniform representation of end-of-sequence. -/
theorem C8_counterexample :
    (rangeList (put .nil ⟨0, 0⟩) ⟨⟨-1, -1⟩, ⟨1, 1⟩⟩).length = 1 ∧
      IterData.advance (put .nil ⟨0, 0⟩)
        (.vlist (rangeList (put .nil ⟨0, 0⟩) ⟨⟨-1, -1⟩, ⟨1, 1⟩⟩)) ≠ endIter := by
  decide

/-- C9: copy-construction is NOT safe for the empty set.  The copy
constructor unconditionally calls `set_parents(m_root)`, and `set_parents`
immediately evaluates `node->left` on its argument: for an empty source the
argument is a null `shared_ptr`, which is undefined behavior (modelled as the
error result).  For every non-empty source the copy succeeds (though the
node copy constructor's initializer list omits `size`, leaving every copied
node with the member default `size = 1`). -/
theorem C9_copy_empty_null_deref :
    copyCtorE .nil = .error () ∧
      ∀ t : Node, t ≠ .nil → copyCtorE t = .ok (copyNode t) := by
  constructor
  · rfl
  · intro t ht
    cases t with
    | nil => exact absurd rfl ht
    | mk q rect s l r => rfl

/-- Witness for C9: the empty copy errors; copying the one-point set
{(0,0)} succeeds. -/
theorem C9_copy_empty_null_deref_witness :
    copyCtorE .nil = .error () ∧
      (put .nil ⟨0, 0⟩ ≠ .nil ∧
        copyCtorE (put .nil ⟨0, 0⟩) = .ok (copyNode (put .nil ⟨0, 0⟩))) :=
  ⟨C9_copy_empty_null_deref.1,
   by decide,
   C9_copy_empty_null_deref.2 _ (by decide)⟩

end KD
